import Mathlib

/-!
# Block synchronizer of go-iost: a shallow embedding

Source: `consensus/synchronizer/synchronizer.go`.

Conventions of the embedding.

* An `int64` is an `Int`; every `+`, `-`, `++`, `--` of the source goes through
  `wrap64`, the two's-complement wrap-around of Go.
* A `*BlockCacheNode` that is followed is the list of nodes reached through
  `Parent` (the node itself first); `nil` is the empty list. Two such pointers
  are the same pointer when they hold the same address: every node carries the
  address of its object in `addr`, and the pointer field `lastBcn`, which is
  only compared and assigned, holds an address (`none` is `nil`).
* A `sync.Map` is an association list; `Range` visits it in list order, so a
  statement proved for every list holds for every iteration order.
* Calls into collaborators whose code is not part of the synchronizer (the
  download controller, the p2p service, goroutine launches) are appended to
  `SyncImpl.trace` in program order, together with the writes to `reqMap`.
* A loop whose number of rounds is not bounded by the shape of its data takes
  a `fuel` argument; running dry is the fault `Fault.outOfFuel`.
* An allocation is taken to be granted when its size is that of data already
  at hand. The `make` of `getBlockHashes` is not of that kind: its capacity is
  computed from two numbers of a remote message. It goes through `makeslice`,
  the panic rule of the runtime, and, when the object is large, through the
  answer of the machine, `SyncImpl.heapGrants`.
-/

namespace Synchronizer

/-! ## int64 arithmetic -/

/-- Smallest int64. -/
def minInt64 : Int := -9223372036854775808

/-- Largest int64. -/
def maxInt64 : Int := 9223372036854775807

/-- Two's-complement reduction of an exact integer to the int64 range. -/
def wrap64 (x : Int) : Int :=
  (x + 9223372036854775808) % 18446744073709551616 - 9223372036854775808

/-- Go `a + b` on int64. -/
def add64 (a b : Int) : Int := wrap64 (a + b)

/-- Go `a - b` on int64. -/
def sub64 (a b : Int) : Int := wrap64 (a - b)

/-- The value is representable as an int64. -/
def isInt64 (x : Int) : Prop := minInt64 ≤ x ∧ x ≤ maxInt64

instance (x : Int) : Decidable (isInt64 x) := by
  unfold isInt64; exact inferInstance

/-! ## Package constants (`var (...)` block) -/

def confirmNumber : Int := 8
def maxBlockHashQueryNumber : Int := 100
def heightAvailableTime : Int := 22 * 3
def heightTimeout : Int := 100 * 22 * 3
def continuousNum : Int := 5
def syncNumber : Int := 11 * continuousNum

/-! ## Data model -/

abbrev PeerID := String
abbrev Hash := List Nat

/-- The wire message `message.SyncHeight`. -/
structure SyncHeight where
  Height : Int
  Time : Int
deriving DecidableEq, Repr

/-- The operating mode kept by `global.BaseVariable`. -/
inductive Mode where
  | ModeNormal
  | ModeSync
  | ModeInit
deriving DecidableEq, Repr

/-- The wire enum `message.RequireType` is an integer on the wire. -/
def RequireType_GETBLOCKHASHES : Int := 0

def RequireType_GETBLOCKHASHESBYNUMBER : Int := 1

/-- The wire message `message.BlockHashQuery`. -/
structure BlockHashQuery where
  ReqType : Int
  Start : Int
  End : Int
  Nums : List Int
deriving DecidableEq, Repr

/-- The wire message `message.BlockInfo`. -/
structure BlockInfo where
  Number : Int
  Hash : Hash
deriving DecidableEq, Repr

/-- The wire message `message.BlockHashResponse`. -/
structure BlockHashResponse where
  BlockInfos : List BlockInfo
deriving DecidableEq, Repr

/-- Encoded bytes handed to the p2p service, kept as the value they encode. -/
inductive Wire where
  | hashQuery (q : BlockHashQuery)
  | hashResponse (r : BlockHashResponse)
  | blockInfo (b : BlockInfo)
  | raw (bytes : List Nat)
deriving DecidableEq, Repr

/-- Modelled from the spec: the generated `Marshal` of `message.BlockHashQuery`
is not among the sources; the spec says that encoding then decoding any wire
message yields an equal value, so encoding succeeds and loses nothing. -/
def BlockHashQuery.Marshal (q : BlockHashQuery) : Except String Wire :=
  .ok (.hashQuery q)

/-- Modelled from the spec: the generated `Marshal` of
`message.BlockHashResponse` is not among the sources; same contract as for the
query. -/
def BlockHashResponse.Marshal (r : BlockHashResponse) : Except String Wire :=
  .ok (.hashResponse r)

/-- Modelled from the spec: the generated `Marshal` of `message.BlockInfo` is
not among the sources; same contract as for the query. -/
def BlockInfo.Marshal (b : BlockInfo) : Except String Wire :=
  .ok (.blockInfo b)

inductive MessageType where
  | SyncBlockHashRequest
  | SyncBlockHashResponse
  | SyncBlockRequest
  | SyncBlockResponse
  | SyncHeight
deriving DecidableEq, Repr

inductive MessagePriority where
  | UrgentMessage
  | NormalMessage
deriving DecidableEq, Repr

/-- One call into a collaborator, or one write to `reqMap`. -/
inductive Effect where
  | Broadcast (data : Wire) (typ : MessageType) (pri : MessagePriority)
  | SendToPeer (peer : PeerID) (data : Wire) (typ : MessageType) (pri : MessagePriority)
  | Reset
  | CreateMission (hash : Hash) (number : Int) (peer : PeerID)
  | goSyncBlocks (startNumber endNumber : Int)
  | reqMapStore (n : Int)
  | reqMapDelete (n : Int)
deriving DecidableEq, Repr

inductive BCNType where
  | Linked
  | Single
deriving DecidableEq, Repr

/-- The fields of `block.Block` the synchronizer reads. -/
structure Block where
  Witness : String
  HeadHash : Hash
deriving DecidableEq, Repr

/-- The fields of `blockcache.BlockCacheNode` the synchronizer reads; `Parent`
is the next element of the list the node sits in; `addr` is the address of the
node object, the value of a `*BlockCacheNode` that points to it. -/
structure BlockCacheNode where
  Number : Int
  Block : Block
  Type_ : BCNType
  addr : Nat
deriving DecidableEq, Repr

/-- The block cache as the synchronizer sees it. `Head()` is `Head` followed by
`HeadParents`, its chain of `Parent` pointers; it is never nil. -/
structure BlockCache where
  Head : BlockCacheNode
  HeadParents : List BlockCacheNode
  LinkedRoot : BlockCacheNode
  Find : Hash → Option BlockCacheNode
  GetBlockByNumber : Int → Option Block

/-- The pointer returned by `blockCache.Head()`. -/
def BlockCache.headPtr (bc : BlockCache) : List BlockCacheNode :=
  bc.Head :: bc.HeadParents

/-- The persistent chain as the synchronizer sees it (an error is `none`). -/
structure BlockChain where
  Length : Int
  GetHashByNumber : Int → Option Hash

/-- The state `SyncImpl` owns or reaches. -/
structure SyncImpl where
  blockCache : BlockCache
  blockChain : BlockChain
  accID : String
  mode : Mode
  lastBcn : Option Nat
  reqMap : List Int
  heightMap : List (PeerID × SyncHeight)
  syncEnd : Int
  trace : List Effect
  /-- The machine: whether the heap grants a large allocation of that many
  bytes when `make` asks for it. -/
  heapGrants : Int → Bool

/-- Ways a call can fail to return. -/
inductive Fault where
  | outOfFuel
  | makesliceCapOutOfRange
  | outOfMemory
  | nilPointerDereference
deriving DecidableEq, Repr

/-! ## The `make` of the runtime -/

/-- Size in bytes of one element of a `[]*message.BlockInfo`, a pointer. -/
def ptrSize : Int := 8

/-- The constant `maxAlloc` of the Go runtime on linux/amd64 (48 bits of heap
address): the largest number of bytes one allocation may ask for. -/
def maxAlloc : Int := 281474976710656

/-- The constant `_MaxSmallSize` of the Go runtime: an object up to this size
comes from a span of its size class, a larger one takes pages from the heap. -/
def maxSmallSize : Int := 32768

/-- The fault, if any, of `make([]*message.BlockInfo, 0, cap)`, which is
`runtime.makeslice`. It panics with `makeslice: cap out of range` when `cap` is
negative or `cap` elements need more than `maxAlloc` bytes. Otherwise it
allocates. A small object is taken to be granted, as every other allocation of
the program is. A larger one takes pages from the heap, and when the machine
refuses them (`heapGrants` is its answer for that many bytes) the runtime ends
the process with `fatal error: out of memory`. -/
def makeslice (heapGrants : Int → Bool) (cap : Int) : Option Fault :=
  if cap < 0 ∨ maxAlloc < cap * ptrSize then some Fault.makesliceCapOutOfRange
  else if maxSmallSize < cap * ptrSize ∧ heapGrants (cap * ptrSize) = false then
    some Fault.outOfMemory
  else none

/-! ## sync.Map operations -/

/-- The `Delete` of `sync.Map` on the height registry. -/
def heightMapDelete (m : List (PeerID × SyncHeight)) (k : PeerID) :
    List (PeerID × SyncHeight) :=
  m.filter (fun e => e.1 ≠ k)

/-- The `Store(i, true)` of `sync.Map` on the request map. -/
def reqMapStore (m : List Int) (i : Int) : List Int :=
  if i ∈ m then m else m ++ [i]

/-- The `Delete` of `sync.Map` on the request map. -/
def reqMapDelete (m : List Int) (i : Int) : List Int :=
  m.filter (fun j => j ≠ i)

/-! ## checkSync -/

/-- The shifting loop `for 0 < r && heights[r-1] > sh.Height` of `checkSync`,
ending with `heights[r] = sh.Height`. -/
def insertLoop (heights : List Int) : Nat → Int → List Int
  | 0, h => heights.set 0 h
  | r + 1, h =>
    if heights.getD r 0 > h then
      insertLoop (heights.set (r + 1) (heights.getD r 0)) r h
    else heights.set (r + 1) h

/-- The three statements `heights = append(heights, 0)`, `r := len(heights) - 1`
and the shifting loop. -/
def heightsInsert (heights : List Int) (h : Int) : List Int :=
  insertLoop (heights ++ [0]) heights.length h

/-- The test `sh.Time+heightAvailableTime < now` fails: the entry is sampled. -/
def fresh (now : Int) (sh : SyncHeight) : Bool :=
  !decide (add64 sh.Time heightAvailableTime < now)

/-- The test `sh.Time+heightTimeout < now`. -/
def expired (now : Int) (sh : SyncHeight) : Bool :=
  decide (add64 sh.Time heightTimeout < now)

/-- The heights of the entries that pass the freshness test, in registry order. -/
def freshHeights (now : Int) (heightMap : List (PeerID × SyncHeight)) : List Int :=
  (heightMap.filter (fun e => fresh now e.2)).map (fun e => e.2.Height)

/-- The callback passed to `heightMap.Range`, on the pair
(heights, heightMap). -/
def checkSyncVisit (now : Int) (acc : List Int × List (PeerID × SyncHeight))
    (kv : PeerID × SyncHeight) : List Int × List (PeerID × SyncHeight) :=
  if add64 kv.2.Time heightAvailableTime < now then
    if add64 kv.2.Time heightTimeout < now then
      (acc.1, heightMapDelete acc.2 kv.1)
    else acc
  else (heightsInsert acc.1 kv.2.Height, acc.2)

/-- Lines 169-188 of `checkSync`: the samples and the registry after `Range`. -/
def checkSyncScan (headNumber now : Int) (heightMap : List (PeerID × SyncHeight)) :
    List Int × List (PeerID × SyncHeight) :=
  heightMap.foldl (checkSyncVisit now) ([headNumber], heightMap)

/-- The slice `heights` when `Range` has returned. -/
def sampleHeights (headNumber now : Int) (heightMap : List (PeerID × SyncHeight)) :
    List Int :=
  (checkSyncScan headNumber now heightMap).1

/-- The value `netHeight := heights[len(heights)/2]`. -/
def netHeight (headNumber now : Int) (heightMap : List (PeerID × SyncHeight)) : Int :=
  (sampleHeights headNumber now heightMap).getD
    ((sampleHeights headNumber now heightMap).length / 2) 0

/-- The method `checkSync`; `now` is `time.Now().Unix()`. -/
def checkSync (sy : SyncImpl) (now : Int) : Bool × SyncImpl :=
  if sy.mode ≠ Mode.ModeNormal then (false, sy)
  else
    let height := sub64 sy.blockChain.Length 1
    let scan := checkSyncScan sy.blockCache.Head.Number now sy.heightMap
    let heights := scan.1
    let netHeight := heights.getD (heights.length / 2) 0
    let sy1 := { sy with heightMap := scan.2 }
    if netHeight > add64 height syncNumber then
      (true, { sy1 with
        mode := Mode.ModeSync
        trace := sy1.trace ++ [Effect.Reset, Effect.goSyncBlocks (add64 height 1) netHeight] })
    else (false, sy1)

/-! ## queryBlockHash and syncBlocks -/

/-- The method `queryBlockHash`. -/
def queryBlockHash (sy : SyncImpl) (hr : BlockHashQuery) : SyncImpl :=
  match hr.Marshal with
  | .error _ => sy
  | .ok bytes =>
    { sy with trace := sy.trace ++
        [Effect.Broadcast bytes MessageType.SyncBlockHashRequest MessagePriority.UrgentMessage] }

/-- The statement `sy.reqMap.Store(i, true)`. -/
def storeReq (sy : SyncImpl) (i : Int) : SyncImpl :=
  { sy with reqMap := reqMapStore sy.reqMap i, trace := sy.trace ++ [Effect.reqMapStore i] }

/-- The loop `for i := startNumber; i < hi; i++ { sy.reqMap.Store(i, true) }`,
entered with `i`. -/
def storeLoopLt : Nat → Int → Int → SyncImpl → Except Fault SyncImpl
  | 0, _, _, _ => .error Fault.outOfFuel
  | fuel + 1, i, hi, sy =>
    if i < hi then storeLoopLt fuel (add64 i 1) hi (storeReq sy i) else .ok sy

/-- The loop `for i := startNumber; i <= endNumber; i++ { sy.reqMap.Store(i, true) }`,
entered with `i`. -/
def storeLoopLe : Nat → Int → Int → SyncImpl → Except Fault SyncImpl
  | 0, _, _, _ => .error Fault.outOfFuel
  | fuel + 1, i, endNumber, sy =>
    if i ≤ endNumber then storeLoopLe fuel (add64 i 1) endNumber (storeReq sy i) else .ok sy

/-- One round of the loop `for endNumber > startNumber+maxBlockHashQueryNumber-1`
of `syncBlocks`; it yields the next `startNumber`. The inner wait
`for sy.blockCache.Head().Number+3 < startNumber { time.Sleep(...) }` polls a
value that other goroutines advance and writes nothing: it is taken to end and
is a no-op here. `inner` is the fuel handed to the store loop. -/
def syncBlocksRound (inner : Nat) (startNumber : Int) (sy : SyncImpl) :
    Except Fault (Int × SyncImpl) :=
  match storeLoopLt inner startNumber (add64 startNumber maxBlockHashQueryNumber) sy with
  | .error f => .error f
  | .ok sy1 =>
    .ok (add64 startNumber maxBlockHashQueryNumber,
      queryBlockHash sy1
        { ReqType := 0, Start := startNumber,
          End := sub64 (add64 startNumber maxBlockHashQueryNumber) 1, Nums := [] })

/-- The loop `for endNumber > startNumber+maxBlockHashQueryNumber-1` of
`syncBlocks`; it yields the final `startNumber`. -/
def syncBlocksLoop (inner : Nat) : Nat → Int → Int → SyncImpl → Except Fault (Int × SyncImpl)
  | 0, _, _, _ => .error Fault.outOfFuel
  | fuel + 1, startNumber, endNumber, sy =>
    if endNumber > sub64 (add64 startNumber maxBlockHashQueryNumber) 1 then
      match syncBlocksRound inner startNumber sy with
      | .error f => .error f
      | .ok (startNumber1, sy1) => syncBlocksLoop inner fuel startNumber1 endNumber sy1
    else .ok (startNumber, sy)

/-- The method `syncBlocks`. -/
def syncBlocks (fuel : Nat) (sy : SyncImpl) (startNumber endNumber : Int) :
    Except Fault SyncImpl :=
  match syncBlocksLoop fuel fuel startNumber endNumber { sy with syncEnd := endNumber } with
  | .error f => .error f
  | .ok (startNumber, sy1) =>
    if startNumber ≤ endNumber then
      match storeLoopLe fuel startNumber endNumber sy1 with
      | .error f => .error f
      | .ok sy2 =>
        .ok (queryBlockHash sy2
          { ReqType := 0, Start := startNumber, End := endNumber, Nums := [] })
    else .ok sy1

/-! ### Reading a trace -/

/-- The state after `Store(i, true)`, ..., `Store(i + n - 1, true)`. -/
def storeRange (sy : SyncImpl) (i : Int) : Nat → SyncImpl
  | 0 => sy
  | n + 1 => storeRange (storeReq sy i) (i + 1) n

/-- The broadcast `queryBlockHash` makes for a Range query on `[s, e]`. -/
def rangeBroadcast (s e : Int) : Effect :=
  Effect.Broadcast (Wire.hashQuery { ReqType := 0, Start := s, End := e, Nums := [] })
    MessageType.SyncBlockHashRequest MessagePriority.UrgentMessage

/-- The calls to the p2p service recorded in a trace, in order. -/
def p2pCalls (trace : List Effect) : List Effect :=
  trace.filter (fun ef =>
    match ef with
    | Effect.Broadcast _ _ _ => true
    | Effect.SendToPeer _ _ _ _ => true
    | _ => false)

/-- Replays a trace over the pending set `pending` and holds when, at every
broadcast of a hash query, each number of `[Start, End]` is in the pending set
as it stands at that point. -/
def pendingWhenQueried : List Int → List Effect → Prop
  | _, [] => True
  | pending, Effect.reqMapStore n :: t => pendingWhenQueried (reqMapStore pending n) t
  | pending, Effect.reqMapDelete n :: t => pendingWhenQueried (reqMapDelete pending n) t
  | pending, Effect.Broadcast (Wire.hashQuery q) _ _ :: t =>
    (∀ n : Int, q.Start ≤ n → n ≤ q.End → n ∈ pending) ∧ pendingWhenQueried pending t
  | pending, _ :: t => pendingWhenQueried pending t

/-- The pending set a trace leaves behind. -/
def replayReqMap : List Int → List Effect → List Int
  | pending, [] => pending
  | pending, Effect.reqMapStore n :: t => replayReqMap (reqMapStore pending n) t
  | pending, Effect.reqMapDelete n :: t => replayReqMap (reqMapDelete pending n) t
  | pending, _ :: t => replayReqMap pending t

/-- The writes `Store(i, true)`, ..., `Store(i + n - 1, true)` as effects. -/
def storeEffects (i : Int) : Nat → List Effect
  | 0 => []
  | n + 1 => Effect.reqMapStore i :: storeEffects (i + 1) n

/-- The effects of `k` rounds of 100 numbers from `s`, then of the closing
batch `[s + 100 k, e]` when it is not empty: the batches the spec describes. -/
def specTrace (s e : Int) : Nat → List Effect
  | 0 =>
    if s ≤ e then storeEffects s (e + 1 - s).toNat ++ [rangeBroadcast s e] else []
  | k + 1 => storeEffects s 100 ++ rangeBroadcast s (s + 99) :: specTrace (s + 100) e k

/-- The queries of `specTrace`, in order. -/
def specQueries (s e : Int) : Nat → List BlockHashQuery
  | 0 => if s ≤ e then [{ ReqType := 0, Start := s, End := e, Nums := [] }] else []
  | k + 1 =>
    { ReqType := 0, Start := s, End := s + 99, Nums := [] } :: specQueries (s + 100) e k

/-- The broadcast of a hash query, as `queryBlockHash` makes it. -/
def queryBroadcast (q : BlockHashQuery) : Effect :=
  Effect.Broadcast (Wire.hashQuery q) MessageType.SyncBlockHashRequest
    MessagePriority.UrgentMessage

/-- The state after the effects `t`: they are appended to the trace and
replayed on `reqMap`. -/
def applyTrace (sy : SyncImpl) (t : List Effect) : SyncImpl :=
  { sy with reqMap := replayReqMap sy.reqMap t, trace := sy.trace ++ t }

/-! ## CheckSyncProcess -/

/-- The method `CheckSyncProcess`. -/
def CheckSyncProcess (sy : SyncImpl) : SyncImpl :=
  if sy.syncEnd ≤ sy.blockCache.Head.Number then
    { sy with mode := Mode.ModeNormal, trace := sy.trace ++ [Effect.Reset] }
  else sy

/-! ## Answering hash queries -/

/-- The loop `for i := end; i >= start; i--` of `getBlockHashes`, entered with
`i`, the current `node` and the infos appended so far. The inner loop
`for node != nil && i < node.Number { node = node.Parent }` is `dropWhile` on
the parent chain. -/
def getBlockHashesLoop (chain : BlockChain) (start : Int) :
    Nat → Int → List BlockCacheNode → List BlockInfo → Except Fault (List BlockInfo)
  | 0, _, _, _ => .error Fault.outOfFuel
  | fuel + 1, i, node, infos =>
    if i ≥ start then
      match node.dropWhile (fun n => decide (i < n.Number)) with
      | n :: rest =>
        getBlockHashesLoop chain start fuel (sub64 i 1) (n :: rest)
          (infos ++ [{ Number := i, Hash := n.Block.HeadHash }])
      | [] =>
        match chain.GetHashByNumber i with
        | none => getBlockHashesLoop chain start fuel (sub64 i 1) [] infos
        | some hash =>
          getBlockHashesLoop chain start fuel (sub64 i 1) []
            (infos ++ [{ Number := i, Hash := hash }])
    else .ok infos

/-- The method `getBlockHashes`. The `make` of its first statement is asked for
the capacity `end-start+1`, computed in int64 before `end` is clamped to the
head; its fault is the fault of the call. The closing swap loop reverses the
slice. -/
def getBlockHashes (fuel : Nat) (sy : SyncImpl) (start end_ : Int) :
    Except Fault BlockHashResponse :=
  match makeslice sy.heapGrants (add64 (sub64 end_ start) 1) with
  | some f => .error f
  | none =>
    let node := sy.blockCache.headPtr
    let end1 :=
      match node with
      | n :: _ => if end_ > n.Number then n.Number else end_
      | [] => end_
    match getBlockHashesLoop sy.blockChain start fuel end1 node [] with
    | .error f => .error f
    | .ok infos => .ok { BlockInfos := infos.reverse }

/-- The body of `for _, num := range nums` in `getBlockHashesByNums`. -/
def byNumsVisit (sy : SyncImpl) (infos : List BlockInfo) (num : Int) : List BlockInfo :=
  match sy.blockCache.GetBlockByNumber num with
  | some blk => infos ++ [{ Number := num, Hash := blk.HeadHash }]
  | none =>
    match sy.blockChain.GetHashByNumber num with
    | none => infos
    | some hash => infos ++ [{ Number := num, Hash := hash }]

/-- The method `getBlockHashesByNums`. The `make` of its first statement asks
for as many pointers as the request holds numbers, the size of data already at
hand, and is taken to be granted. -/
def getBlockHashesByNums (sy : SyncImpl) (nums : List Int) : BlockHashResponse :=
  { BlockInfos := nums.foldl (byNumsVisit sy) [] }

/-- The `switch rh.ReqType` of `handleHashQuery`: `resp` stays nil (`none`)
when no case matches. -/
def resolveHashQuery (fuel : Nat) (sy : SyncImpl) (rh : BlockHashQuery) :
    Except Fault (Option BlockHashResponse) :=
  if rh.ReqType = RequireType_GETBLOCKHASHES then
    match getBlockHashes fuel sy rh.Start rh.End with
    | .error f => .error f
    | .ok resp => .ok (some resp)
  else if rh.ReqType = RequireType_GETBLOCKHASHESBYNUMBER then
    .ok (some (getBlockHashesByNums sy rh.Nums))
  else .ok none

/-- The method `handleHashQuery`. -/
def handleHashQuery (fuel : Nat) (sy : SyncImpl) (rh : BlockHashQuery) (peerID : PeerID) :
    Except Fault SyncImpl :=
  if rh.End < rh.Start ∨ rh.Start < 0 then .ok sy
  else
    match resolveHashQuery fuel sy rh with
    | .error f => .error f
    | .ok none => .error Fault.nilPointerDereference
    | .ok (some resp) =>
      if resp.BlockInfos.length = 0 then .ok sy
      else
        match resp.Marshal with
        | .error _ => .ok sy
        | .ok bytes =>
          .ok { sy with trace := sy.trace ++
            [Effect.SendToPeer peerID bytes MessageType.SyncBlockHashResponse
              MessagePriority.NormalMessage] }

/-- The info the loop of `getBlockHashes` appends for the number `i`, if any:
the hash of the first node, walking from the cache head through `Parent`,
whose number is not above `i`, else the hash the persistent chain has for `i`. -/
def resolveNumber (sy : SyncImpl) (i : Int) : Option BlockInfo :=
  match sy.blockCache.headPtr.dropWhile (fun n => decide (i < n.Number)) with
  | n :: _ => some { Number := i, Hash := n.Block.HeadHash }
  | [] =>
    match sy.blockChain.GetHashByNumber i with
    | none => none
    | some hash => some { Number := i, Hash := hash }

/-- The info `getBlockHashesByNums` appends for the number `num`, if any: the
head hash of the block the cache returns for `num`, else the hash the
persistent chain has for `num`. -/
def resolveByNum (sy : SyncImpl) (num : Int) : Option BlockInfo :=
  match sy.blockCache.GetBlockByNumber num with
  | some blk => some { Number := num, Hash := blk.HeadHash }
  | none =>
    match sy.blockChain.GetHashByNumber num with
    | none => none
    | some hash => some { Number := num, Hash := hash }

/-- The numbers `i, i - 1, ..., i - n + 1`, in the order the loop of
`getBlockHashes` visits them. -/
def descFrom (i : Int) : Nat → List Int
  | 0 => []
  | n + 1 => i :: descFrom (i - 1) n

/-! ## handleHashResp -/

/-- The body of `for _, blkInfo := range rh.BlockInfos` in `handleHashResp`. -/
def handleHashRespVisit (peerID : PeerID) (sy : SyncImpl) (blkInfo : BlockInfo) : SyncImpl :=
  let sy1 :=
    if blkInfo.Number > sy.blockCache.LinkedRoot.Number then
      match sy.blockCache.Find blkInfo.Hash with
      | none =>
        { sy with trace := sy.trace ++
            [Effect.CreateMission blkInfo.Hash blkInfo.Number peerID] }
      | some _ => sy
    else sy
  { sy1 with
    reqMap := reqMapDelete sy1.reqMap blkInfo.Number
    trace := sy1.trace ++ [Effect.reqMapDelete blkInfo.Number] }

/-- The method `handleHashResp`. -/
def handleHashResp (sy : SyncImpl) (rh : BlockHashResponse) (peerID : PeerID) : SyncImpl :=
  rh.BlockInfos.foldl (handleHashRespVisit peerID) sy

/-- The test `handleHashResp` applies before `CreateMission`: the number is
above the linked root and `Find` fails on the hash. -/
def wantsMission (bc : BlockCache) (blkInfo : BlockInfo) : Bool :=
  decide (blkInfo.Number > bc.LinkedRoot.Number) && (bc.Find blkInfo.Hash).isNone

/-- The `CreateMission` calls recorded in a trace, in order. -/
def missionCalls (trace : List Effect) : List Effect :=
  trace.filter (fun ef =>
    match ef with
    | Effect.CreateMission _ _ _ => true
    | _ => false)

/-! ## retryDownloadLoop -/

/-- The call `sort.Slice(hq.Nums, func(i, j) bool { return hq.Nums[i] < hq.Nums[j] })`.
The standard library promises an ascending rearrangement of the slice; on
integers there is only one, and insertion sort computes it. -/
def sortSlice (nums : List Int) : List Int :=
  nums.insertionSort (· ≤ ·)

/-- The body of `case <-time.After(retryTime)` in `retryDownloadLoop`. Every key
of `reqMap` is an int64, so the branch `!ok` of the callback, which deletes the
key, is never taken and the callback only appends. -/
def retryDownloadTick (sy : SyncImpl) : SyncImpl :=
  let nums := sy.reqMap.foldl (fun nums num => nums ++ [num]) []
  if nums.length > 0 then
    queryBlockHash sy { ReqType := 1, Start := 0, End := 0, Nums := sortSlice nums }
  else sy

/-! ## reqSyncBlock -/

/-- The method `reqSyncBlock`, for arguments of the asserted types (`p` an
int64, `peerID` a `p2p.PeerID`); it yields `(sent, confirmed)` and the state. -/
def reqSyncBlock (sy : SyncImpl) (hash : Hash) (bn : Int) (peerID : PeerID) :
    (Bool × Bool) × SyncImpl :=
  if bn ≤ sy.blockCache.LinkedRoot.Number then ((false, true), sy)
  else
    match sy.blockCache.Find hash with
    | some bcn =>
      if bcn.Type_ = BCNType.Linked then ((false, true), sy) else ((false, false), sy)
    | none =>
      match ({ Number := bn, Hash := hash } : BlockInfo).Marshal with
      | .error _ => ((false, false), sy)
      | .ok bytes =>
        ((true, false),
          { sy with trace := sy.trace ++
            [Effect.SendToPeer peerID bytes MessageType.SyncBlockRequest
              MessagePriority.UrgentMessage] })

/-! ## checkGenBlock -/

/-- The loop `for i := int64(0); i < confirmNumber*continuousNum; i++` of
`checkGenBlock`, with `rounds` rounds left, entered with `bcn` and `num`. -/
def countWitness (witness : String) : Nat → List BlockCacheNode → Int → Int
  | 0, _, num => num
  | _ + 1, [], num => num
  | rounds + 1, bcn :: parent, num =>
    countWitness witness rounds parent
      (if witness = bcn.Block.Witness then add64 num 1 else num)

/-- The method `checkGenBlock`. The comparison `bcn != sy.lastBcn` is of two
pointers: of the address of the node `bcn` and the address kept in `lastBcn`. -/
def checkGenBlock (sy : SyncImpl) : Bool × SyncImpl :=
  if sy.mode ≠ Mode.ModeNormal then (false, sy)
  else
    match sy.blockCache.headPtr.dropWhile (fun n => decide (n.Block.Witness = sy.accID)) with
    | [] => (false, sy)
    | bcn :: parent =>
      let height := sub64 sy.blockChain.Length 1
      if some bcn.addr ≠ sy.lastBcn then
        let num := countWitness bcn.Block.Witness (confirmNumber * continuousNum).toNat
          (bcn :: parent) 0
        if num > continuousNum then
          (true, { sy with
            lastBcn := some bcn.addr
            trace := sy.trace ++
              [Effect.goSyncBlocks (add64 height 1) sy.blockCache.Head.Number] })
        else (false, { sy with lastBcn := some bcn.addr })
      else if (0 : Int) > continuousNum then
        (true, { sy with
          trace := sy.trace ++
            [Effect.goSyncBlocks (add64 height 1) sy.blockCache.Head.Number] })
      else (false, sy)

/-- The pointer `bcn` after the first loop of `checkGenBlock`: the first node,
walking from the cache head through `Parent`, whose witness is not the local
identity, with its ancestors; empty when there is none. -/
def firstForeign (sy : SyncImpl) : List BlockCacheNode :=
  sy.blockCache.headPtr.dropWhile (fun n => decide (n.Block.Witness = sy.accID))

/-- The value of the pointer `bcn` after the first loop of `checkGenBlock`: the
address of the first node whose witness is not the local identity, `nil` when
there is none. -/
def firstForeignPtr (sy : SyncImpl) : Option Nat :=
  (firstForeign sy).head?.map (fun n => n.addr)

/-- Among a node and its next ancestors, 40 nodes at most in total, how many
carry the witness of the node. -/
def sameWitnessCount (a : List BlockCacheNode) : Nat :=
  match a with
  | [] => 0
  | bcn :: _ => (a.take 40).countP (fun nd => decide (bcn.Block.Witness = nd.Block.Witness))

/-! ## syncHeightLoop -/

/-- The `Load` of `sync.Map` on the height registry. -/
def heightMapLoad (m : List (PeerID × SyncHeight)) (k : PeerID) : Option SyncHeight :=
  match m.find? (fun e => decide (e.1 = k)) with
  | some e => some e.2
  | none => none

/-- The `Store` of `sync.Map` on the height registry: the value of an existing
key is replaced, a new key is added. -/
def heightMapStore (m : List (PeerID × SyncHeight)) (k : PeerID) (v : SyncHeight) :
    List (PeerID × SyncHeight) :=
  if m.any (fun e => decide (e.1 = k)) then
    m.map (fun e => if e.1 = k then (k, v) else e)
  else m ++ [(k, v)]

/-- The body of `case req := <-sy.syncHeightChan` in `syncHeightLoop`, for a
message from `from_` that decodes to `sh` (a message that fails to decode is
skipped). -/
def recordHeight (sy : SyncImpl) (from_ : PeerID) (sh : SyncHeight) : SyncImpl :=
  match heightMapLoad sy.heightMap from_ with
  | some shOld =>
    if shOld.Height = sh.Height then sy
    else { sy with heightMap := heightMapStore sy.heightMap from_ sh }
  | none => { sy with heightMap := heightMapStore sy.heightMap from_ sh }

/-! ## Example states -/

/-- A cache node carrying only a number, at the address of that number. -/
def exNode (n : Int) : BlockCacheNode :=
  { Number := n, Block := { Witness := "w", HeadHash := [n.toNat] }, Type_ := BCNType.Linked,
    addr := n.toNat }

/-- A state in Normal mode: chain of length `len`, cache head numbered `head`
with parents `head-1 .. head-k`, the given height registry, `lastBcn` nil, and
a heap that grants up to 2^30 bytes at a time. -/
def exState (len head : Int) (k : Nat) (heightMap : List (PeerID × SyncHeight)) : SyncImpl :=
  { blockCache :=
      { Head := exNode head
        HeadParents := (List.range k).map (fun j => exNode (head - 1 - j))
        LinkedRoot := exNode (head - k)
        Find := fun _ => none
        GetBlockByNumber := fun _ => none }
    blockChain := { Length := len, GetHashByNumber := fun n => if n < len then some [n.toNat] else none }
    accID := "me"
    mode := Mode.ModeNormal
    lastBcn := none
    reqMap := []
    heightMap := heightMap
    syncEnd := 0
    trace := []
    heapGrants := fun bytes => decide (bytes ≤ 1073741824) }

/-- The state `exState 101 100 2 []` (linked root 98) whose cache finds the
node `bcn` under the hash `hash` and nothing else. -/
def exStateFind (hash : Hash) (bcn : BlockCacheNode) : SyncImpl :=
  { exState 101 100 2 [] with
    blockCache :=
      { (exState 101 100 2 []).blockCache with
        Find := fun h => if h = hash then some bcn else none } }


/-! ## Lemmas: int64 arithmetic -/

theorem wrap64_of_isInt64 {x : Int} (h : isInt64 x) : wrap64 x = x := by
  unfold isInt64 minInt64 maxInt64 at h
  unfold wrap64
  omega

theorem isInt64_wrap64 (x : Int) : isInt64 (wrap64 x) := by
  unfold isInt64 minInt64 maxInt64 wrap64
  omega

/-! ## Lemmas: the sample list of checkSync -/

theorem insertLoop_split (xs : List Int) :
    ∀ (g : Int) (ys : List Int) (h : Int),
      ∃ pre post, xs = pre ++ post ∧
        insertLoop (xs ++ g :: ys) xs.length h = pre ++ h :: post ++ ys ∧
        (∀ x ∈ post, h < x) ∧ (∀ a, pre.getLast? = some a → a ≤ h) := by
  induction xs using List.reverseRecOn with
  | nil =>
    intro g ys h
    exact ⟨[], [], rfl, by simp [insertLoop], by simp, by simp⟩
  | append_singleton xs a ih =>
    intro g ys h
    have hget : (xs ++ [a] ++ g :: ys).getD xs.length 0 = a := by
      rw [List.append_assoc, List.getD_eq_getElem?_getD, List.getElem?_append_right (le_refl _)]
      simp
    have hlen : (xs ++ [a]).length = xs.length + 1 := by simp
    rw [hlen]
    by_cases hgt : a > h
    · obtain ⟨pre, post, hxs, hres, hpost, hpre⟩ := ih a (a :: ys) h
      refine ⟨pre, post ++ [a], by simp [hxs], ?_, ?_, hpre⟩
      · have hset : (xs ++ [a] ++ g :: ys).set (xs.length + 1) a = xs ++ a :: a :: ys := by
          have : xs ++ [a] ++ g :: ys = (xs ++ [a]) ++ g :: ys := rfl
          rw [this, List.set_append_right _ _ (by simp)]
          simp
        simp only [insertLoop, hget, hgt, if_true, hset, hres]
        simp
      · intro x hx
        rcases List.mem_append.1 hx with hx | hx
        · exact hpost x hx
        · simp at hx; omega
    · refine ⟨xs ++ [a], [], by simp, ?_, by simp, ?_⟩
      · have hset : (xs ++ [a] ++ g :: ys).set (xs.length + 1) h = xs ++ a :: h :: ys := by
          have : xs ++ [a] ++ g :: ys = (xs ++ [a]) ++ g :: ys := rfl
          rw [this, List.set_append_right _ _ (by simp)]
          simp
        simp only [insertLoop, hget, hgt, if_false, hset]
        simp
      · intro b hb
        simp at hb
        omega

theorem heightsInsert_split (xs : List Int) (h : Int) :
    ∃ pre post, xs = pre ++ post ∧ heightsInsert xs h = pre ++ h :: post ∧
      (∀ x ∈ post, h < x) ∧ (∀ a, pre.getLast? = some a → a ≤ h) := by
  obtain ⟨pre, post, hxs, hres, hpost, hpre⟩ := insertLoop_split xs 0 [] h
  exact ⟨pre, post, hxs, by simpa [heightsInsert] using hres, hpost, hpre⟩

theorem heightsInsert_perm (xs : List Int) (h : Int) :
    (heightsInsert xs h).Perm (h :: xs) := by
  obtain ⟨pre, post, hxs, hres, -, -⟩ := heightsInsert_split xs h
  rw [hres, hxs]
  exact List.perm_middle

theorem heightsInsert_sorted (xs : List Int) (h : Int) (hs : xs.Sorted (· ≤ ·)) :
    (heightsInsert xs h).Sorted (· ≤ ·) := by
  obtain ⟨pre, post, hxs, hres, hpost, hpre⟩ := heightsInsert_split xs h
  rw [hres]
  rw [hxs] at hs
  have hs' := List.pairwise_append.1 hs
  have hpre_le : ∀ x ∈ pre, x ≤ h := by
    intro x hx
    rcases List.eq_nil_or_concat pre with hnil | ⟨l, b, hb⟩
    · simp [hnil] at hx
    · rw [List.concat_eq_append] at hb
      have hlast : b ≤ h := hpre b (by simp [hb])
      rw [hb] at hx hs'
      have hsp := List.pairwise_append.1 hs'.1
      rcases List.mem_append.1 hx with hx | hx
      · exact le_trans (hsp.2.2 x hx b (List.mem_singleton.2 rfl)) hlast
      · simp at hx; omega
  refine List.pairwise_append.2 ⟨hs'.1, ?_, ?_⟩
  · refine List.pairwise_cons.2 ⟨fun x hx => le_of_lt (hpost x hx), hs'.2.1⟩
  · intro x hx y hy
    rcases List.mem_cons.1 hy with hy | hy
    · rw [hy]; exact hpre_le x hx
    · exact hs'.2.2 x hx y hy


theorem checkSyncVisit_fold_fst (now : Int) (reg : List (PeerID × SyncHeight)) :
    ∀ (hs : List Int) (m : List (PeerID × SyncHeight)),
      (reg.foldl (checkSyncVisit now) (hs, m)).1 =
        (freshHeights now reg).foldl heightsInsert hs := by
  induction reg with
  | nil => intro hs m; rfl
  | cons e reg ih =>
    intro hs m
    simp only [List.foldl_cons, freshHeights, List.filter_cons, fresh]
    by_cases h1 : add64 e.2.Time heightAvailableTime < now
    · by_cases h2 : add64 e.2.Time heightTimeout < now
      · simp only [checkSyncVisit, h1, h2, if_true, decide_True, Bool.not_true]
        simpa [freshHeights, fresh] using ih hs (heightMapDelete m e.1)
      · simp only [checkSyncVisit, h1, h2, if_true, if_false, decide_True, Bool.not_true]
        simpa [freshHeights, fresh] using ih hs m
    · simp only [checkSyncVisit, h1, if_false, decide_False, Bool.not_false, if_true,
        List.map_cons, List.foldl_cons]
      simpa [freshHeights, fresh] using ih (heightsInsert hs e.2.Height) m

theorem sampleHeights_eq (headNumber now : Int) (heightMap : List (PeerID × SyncHeight)) :
    sampleHeights headNumber now heightMap =
      (freshHeights now heightMap).foldl heightsInsert [headNumber] := by
  unfold sampleHeights checkSyncScan
  exact checkSyncVisit_fold_fst now heightMap [headNumber] heightMap

theorem foldl_heightsInsert_perm (l : List Int) :
    ∀ hs : List Int, (l.foldl heightsInsert hs).Perm (hs ++ l) := by
  induction l with
  | nil => intro hs; simp
  | cons a l ih =>
    intro hs
    refine (ih (heightsInsert hs a)).trans ?_
    refine ((heightsInsert_perm hs a).append_right l).trans ?_
    simpa using (@List.perm_middle Int a hs l).symm

theorem foldl_heightsInsert_sorted (l : List Int) :
    ∀ hs : List Int, hs.Sorted (· ≤ ·) → (l.foldl heightsInsert hs).Sorted (· ≤ ·) := by
  induction l with
  | nil => intro hs h; exact h
  | cons a l ih => intro hs h; exact ih _ (heightsInsert_sorted hs a h)

theorem sampleHeights_perm (headNumber now : Int) (heightMap : List (PeerID × SyncHeight)) :
    (sampleHeights headNumber now heightMap).Perm (headNumber :: freshHeights now heightMap) := by
  rw [sampleHeights_eq]
  exact foldl_heightsInsert_perm _ [headNumber]

theorem sampleHeights_sorted (headNumber now : Int) (heightMap : List (PeerID × SyncHeight)) :
    (sampleHeights headNumber now heightMap).Sorted (· ≤ ·) := by
  rw [sampleHeights_eq]
  exact foldl_heightsInsert_sorted _ [headNumber] (List.sorted_singleton _)

theorem sampleHeights_unique (headNumber now : Int) (heightMap : List (PeerID × SyncHeight))
    (l : List Int) (hs : l.Sorted (· ≤ ·))
    (hp : l.Perm (headNumber :: freshHeights now heightMap)) :
    sampleHeights headNumber now heightMap = l :=
  List.eq_of_perm_of_sorted ((sampleHeights_perm headNumber now heightMap).trans hp.symm)
    (sampleHeights_sorted headNumber now heightMap) hs

theorem checkSync_eq (sy : SyncImpl) (now : Int) :
    checkSync sy now =
      if sy.mode ≠ Mode.ModeNormal then (false, sy)
      else if netHeight sy.blockCache.Head.Number now sy.heightMap >
          add64 (sub64 sy.blockChain.Length 1) syncNumber then
        (true, { sy with
          heightMap := (checkSyncScan sy.blockCache.Head.Number now sy.heightMap).2
          mode := Mode.ModeSync
          trace := sy.trace ++
            [Effect.Reset,
              Effect.goSyncBlocks (add64 (sub64 sy.blockChain.Length 1) 1)
                (netHeight sy.blockCache.Head.Number now sy.heightMap)] })
      else
        (false, { sy with
          heightMap := (checkSyncScan sy.blockCache.Head.Number now sy.heightMap).2 }) :=
  rfl

theorem checkSync_fst (sy : SyncImpl) (now : Int) :
    (checkSync sy now).1 = true ↔
      sy.mode = Mode.ModeNormal ∧
        netHeight sy.blockCache.Head.Number now sy.heightMap >
          add64 (sub64 sy.blockChain.Length 1) syncNumber := by
  rw [checkSync_eq]
  by_cases hm : sy.mode = Mode.ModeNormal
  · rw [if_neg (not_not.2 hm)]
    by_cases hn : netHeight sy.blockCache.Head.Number now sy.heightMap >
        add64 (sub64 sy.blockChain.Length 1) syncNumber
    · rw [if_pos hn]; exact ⟨fun _ => ⟨hm, hn⟩, fun _ => rfl⟩
    · rw [if_neg hn]; exact ⟨fun h => absurd h (by simp), fun h => absurd h.2 hn⟩
  · rw [if_pos hm]; exact ⟨fun h => absurd h (by simp), fun h => absurd h.1 hm⟩

theorem checkSync_of_true (sy : SyncImpl) (now : Int) (h : (checkSync sy now).1 = true) :
    checkSync sy now =
      (true, { sy with
          heightMap := (checkSyncScan sy.blockCache.Head.Number now sy.heightMap).2
          mode := Mode.ModeSync
          trace := sy.trace ++
            [Effect.Reset,
              Effect.goSyncBlocks (add64 (sub64 sy.blockChain.Length 1) 1)
                (netHeight sy.blockCache.Head.Number now sy.heightMap)] }) := by
  have hc := (checkSync_fst sy now).1 h
  rw [checkSync_eq, if_neg (not_not.2 hc.1), if_pos hc.2]

theorem checkSync_of_false (sy : SyncImpl) (now : Int) (h : (checkSync sy now).1 = false) :
    (checkSync sy now).2.mode = sy.mode ∧ (checkSync sy now).2.trace = sy.trace := by
  rw [checkSync_eq] at h ⊢
  by_cases hm : sy.mode = Mode.ModeNormal
  · rw [if_neg (not_not.2 hm)] at h ⊢
    by_cases hn : netHeight sy.blockCache.Head.Number now sy.heightMap >
        add64 (sub64 sy.blockChain.Length 1) syncNumber
    · rw [if_pos hn] at h; exact absurd h (by simp)
    · rw [if_neg hn]; exact ⟨rfl, rfl⟩
  · rw [if_pos hm]; exact ⟨rfl, rfl⟩

/-! ## Theorems: checkSync -/

/-- C1: `checkSync` returns true exactly when the mode is Normal and the net
height exceeds `local_head + 55`, with `local_head` the chain length minus 1
(int64 arithmetic, which is the exact sum for chain lengths from 0 to
2^63 - 55); then the mode is Sync and the calls made are `dc.Reset()` followed
by the launch of `syncBlocks(local_head+1, netHeight)`; when it returns false
the mode and the calls are unchanged, and outside Normal mode the whole state
is returned untouched. -/
theorem checkSync_spec (sy : SyncImpl) (now : Int) :
    ((checkSync sy now).1 = true ↔
      sy.mode = Mode.ModeNormal ∧
        netHeight sy.blockCache.Head.Number now sy.heightMap >
          add64 (sub64 sy.blockChain.Length 1) 55) ∧
    ((checkSync sy now).1 = true →
      (checkSync sy now).2.mode = Mode.ModeSync ∧
      (checkSync sy now).2.trace = sy.trace ++
        [Effect.Reset,
          Effect.goSyncBlocks (add64 (sub64 sy.blockChain.Length 1) 1)
            (netHeight sy.blockCache.Head.Number now sy.heightMap)]) ∧
    ((checkSync sy now).1 = false →
      (checkSync sy now).2.mode = sy.mode ∧ (checkSync sy now).2.trace = sy.trace) ∧
    (sy.mode ≠ Mode.ModeNormal → checkSync sy now = (false, sy)) ∧
    (0 ≤ sy.blockChain.Length → sy.blockChain.Length + 54 ≤ maxInt64 →
      add64 (sub64 sy.blockChain.Length 1) 55 = sy.blockChain.Length - 1 + 55 ∧
      add64 (sub64 sy.blockChain.Length 1) 1 = sy.blockChain.Length) := by
  refine ⟨checkSync_fst sy now, ?_, checkSync_of_false sy now, ?_, ?_⟩
  · intro h
    rw [checkSync_of_true sy now h]
    exact ⟨rfl, rfl⟩
  · intro hm
    rw [checkSync_eq, if_pos hm]
  · intro h0 h1
    unfold maxInt64 at h1
    unfold add64 sub64 wrap64
    omega

/-- C1 witness: the spec scenario (local head 100, peers at 200, 210, 220). -/
theorem checkSync_spec_witness :
    (checkSync (exState 101 100 2
        [("a", ⟨200, 990⟩), ("b", ⟨220, 990⟩), ("c", ⟨210, 990⟩)]) 1000).1 = true ∧
    (checkSync (exState 101 100 2
        [("a", ⟨200, 990⟩), ("b", ⟨220, 990⟩), ("c", ⟨210, 990⟩)]) 1000).2.mode = Mode.ModeSync ∧
    (checkSync (exState 101 100 2
        [("a", ⟨200, 990⟩), ("b", ⟨220, 990⟩), ("c", ⟨210, 990⟩)]) 1000).2.trace =
      [Effect.Reset, Effect.goSyncBlocks 101 210] :=
  have h := checkSync_spec (exState 101 100 2
    [("a", ⟨200, 990⟩), ("b", ⟨220, 990⟩), ("c", ⟨210, 990⟩)]) 1000
  have ht : (checkSync (exState 101 100 2
      [("a", ⟨200, 990⟩), ("b", ⟨220, 990⟩), ("c", ⟨210, 990⟩)]) 1000).1 = true :=
    h.1.2 (by decide)
  ⟨ht, (h.2.1 ht).1, (h.2.1 ht).2.trans (by decide)⟩


theorem freshHeights_perm (now : Int) {r1 r2 : List (PeerID × SyncHeight)} (h : r1.Perm r2) :
    (freshHeights now r1).Perm (freshHeights now r2) :=
  (h.filter _).map _

theorem freshHeights_length (now : Int) (reg : List (PeerID × SyncHeight)) :
    (freshHeights now reg).length = reg.countP (fun e => fresh now e.2) := by
  simp [freshHeights, List.countP_eq_length_filter]

theorem freshHeights_nil (now : Int) (reg : List (PeerID × SyncHeight))
    (h : ∀ e ∈ reg, fresh now e.2 = false) : freshHeights now reg = [] := by
  unfold freshHeights
  rw [List.filter_eq_nil_iff.2 (fun e he => by simp [h e he])]
  rfl

theorem fresh_iff_exact (now : Int) (sh : SyncHeight) (h1 : isInt64 sh.Time)
    (h2 : sh.Time + 66 ≤ maxInt64) : fresh now sh = true ↔ now - sh.Time ≤ 66 := by
  unfold isInt64 minInt64 at h1
  unfold maxInt64 at h2
  have hw : add64 sh.Time heightAvailableTime = sh.Time + 66 := by
    unfold add64 wrap64 heightAvailableTime
    omega
  simp only [fresh, hw, Bool.not_eq_true', decide_eq_false_iff_not]
  omega

/-- C2 (as stated) fails: an entry whose `Time` is the largest int64 satisfies
`now - Time <= 66`, so the samples of the claim are 100 and 200 and their
median, the entry at index 1, is 200; yet `Time + 66` wraps below `now`, the
entry is not sampled, and the net height `checkSync` compares is 100. -/
theorem netHeight_median_counterexample :
    (1000 : Int) - 9223372036854775807 ≤ 66 ∧
    (fun l : List Int => l.getD (l.length / 2) 0)
      (List.insertionSort (· ≤ ·)
        (100 :: (List.filter (fun e : PeerID × SyncHeight => decide (1000 - e.2.Time ≤ 66))
          [("a", ⟨200, 9223372036854775807⟩)]).map (fun e => e.2.Height))) = 200 ∧
    netHeight 100 1000 [("a", ⟨200, 9223372036854775807⟩)] = 100 := by
  decide

/-- C2 (amended): the value `netHeight` that `checkSync` compares with the
threshold is the entry at zero-based index `n / 2` of the ascending sort of the
`n` samples, the cache head number and the height of every entry passing the
freshness test of the code (`Time + 66`, in wrapping int64 arithmetic, is not
below `now`), for every registry, cache head and time: it is that entry of
every ascending rearrangement of the samples, in particular of their insertion
sort, and `checkSync` returns true exactly when the mode is Normal and that
entry exceeds the threshold. When every entry has an int64 `Time` with
`Time + 66` not overflowing, the sampled heights are those of the entries with
`now - Time <= 66`. -/
theorem netHeight_is_median (sy : SyncImpl) (now : Int) :
    (∀ l : List Int, l.Sorted (· ≤ ·) →
      l.Perm (sy.blockCache.Head.Number :: freshHeights now sy.heightMap) →
      netHeight sy.blockCache.Head.Number now sy.heightMap = l.getD (l.length / 2) 0 ∧
      l.length = 1 + sy.heightMap.countP (fun e => fresh now e.2)) ∧
    netHeight sy.blockCache.Head.Number now sy.heightMap =
      (List.insertionSort (· ≤ ·)
        (sy.blockCache.Head.Number :: freshHeights now sy.heightMap)).getD
        ((1 + sy.heightMap.countP (fun e => fresh now e.2)) / 2) 0 ∧
    ((checkSync sy now).1 = true ↔
      sy.mode = Mode.ModeNormal ∧
        (List.insertionSort (· ≤ ·)
          (sy.blockCache.Head.Number :: freshHeights now sy.heightMap)).getD
          ((1 + sy.heightMap.countP (fun e => fresh now e.2)) / 2) 0 >
        add64 (sub64 sy.blockChain.Length 1) syncNumber) ∧
    ((∀ e ∈ sy.heightMap, isInt64 e.2.Time ∧ e.2.Time + 66 ≤ maxInt64) →
      freshHeights now sy.heightMap =
        (sy.heightMap.filter (fun e => decide (now - e.2.Time ≤ 66))).map
          (fun e => e.2.Height)) := by
  have hall : ∀ l : List Int, l.Sorted (· ≤ ·) →
      l.Perm (sy.blockCache.Head.Number :: freshHeights now sy.heightMap) →
      netHeight sy.blockCache.Head.Number now sy.heightMap = l.getD (l.length / 2) 0 ∧
      l.length = 1 + sy.heightMap.countP (fun e => fresh now e.2) := by
    intro l hs hp
    refine ⟨?_, ?_⟩
    · unfold netHeight
      rw [sampleHeights_unique _ _ _ l hs hp]
    · rw [hp.length_eq, List.length_cons, freshHeights_length]
      omega
  have hins := hall _ (List.sorted_insertionSort (· ≤ ·) _) (List.perm_insertionSort (· ≤ ·) _)
  have hnet : netHeight sy.blockCache.Head.Number now sy.heightMap =
      (List.insertionSort (· ≤ ·)
        (sy.blockCache.Head.Number :: freshHeights now sy.heightMap)).getD
        ((1 + sy.heightMap.countP (fun e => fresh now e.2)) / 2) 0 := by
    rw [hins.1, hins.2]
  refine ⟨hall, hnet, ?_, ?_⟩
  · rw [← hnet]
    exact checkSync_fst sy now
  · intro hT
    unfold freshHeights
    congr 1
    apply List.filter_congr
    intro e he
    rw [Bool.eq_iff_iff, decide_eq_true_eq]
    exact fresh_iff_exact now e.2 (hT e he).1 (hT e he).2

/-- C2 witness: samples [100,105,108] give 105 and [100,200,210,220] give 210;
in the first registry no `Time + 66` overflows and the sampled heights are
those of the entries with `now - Time <= 66`. -/
theorem netHeight_is_median_witness :
    netHeight 100 1000 [("a", ⟨108, 990⟩), ("b", ⟨105, 995⟩)] = 105 ∧
    netHeight 100 1000 [("a", ⟨200, 990⟩), ("b", ⟨220, 990⟩), ("c", ⟨210, 990⟩)] = 210 ∧
    freshHeights 1000 [("a", ⟨108, 990⟩), ("b", ⟨105, 995⟩)] =
      (List.filter (fun e : PeerID × SyncHeight => decide (1000 - e.2.Time ≤ 66))
        [("a", ⟨108, 990⟩), ("b", ⟨105, 995⟩)]).map (fun e => e.2.Height) :=
  ⟨((netHeight_is_median (exState 101 100 2 [("a", ⟨108, 990⟩), ("b", ⟨105, 995⟩)]) 1000).1
      [100, 105, 108] (by decide) (by decide)).1,
   ((netHeight_is_median
      (exState 101 100 2 [("a", ⟨200, 990⟩), ("b", ⟨220, 990⟩), ("c", ⟨210, 990⟩)]) 1000).1
      [100, 200, 210, 220] (by decide) (by decide)).1,
   (netHeight_is_median (exState 101 100 2 [("a", ⟨108, 990⟩), ("b", ⟨105, 995⟩)]) 1000).2.2.2
      (by decide)⟩

/-- C3 (as stated) fails: an entry whose `Time` is the largest int64 satisfies
`now - Time <= 66`, yet `Time + 66` wraps below `now`, so it is not sampled:
the sample list has 1 entry, not 1 + 1. -/
theorem sampleHeights_count_counterexample :
    (sampleHeights 100 1000 [("a", ⟨7, 9223372036854775807⟩)]).length ≠
      1 + List.countP (fun e : PeerID × SyncHeight => decide (1000 - e.2.Time ≤ 66))
        [("a", ⟨7, 9223372036854775807⟩)] := by
  decide

/-- C3 (amended): for every registry, cache head and time the sample list is
sorted ascending, has exactly `1 + f` entries where `f` counts the entries
passing the freshness test of the code (`Time + 66`, in wrapping int64
arithmetic, is not below `now`), is a rearrangement of the cache head number
together with the heights of exactly those entries, and is the same list for
every iteration order of the registry; the test is `now - Time <= 66` for every
int64 `Time` with `Time + 66` not overflowing. -/
theorem sampleHeights_sorted_count (headNumber now : Int)
    (heightMap : List (PeerID × SyncHeight)) :
    (sampleHeights headNumber now heightMap).Sorted (· ≤ ·) ∧
    (sampleHeights headNumber now heightMap).length =
      1 + heightMap.countP (fun e => fresh now e.2) ∧
    (sampleHeights headNumber now heightMap).Perm
      (headNumber :: (heightMap.filter (fun e => fresh now e.2)).map (fun e => e.2.Height)) ∧
    (∀ heightMap1 : List (PeerID × SyncHeight), heightMap1.Perm heightMap →
      sampleHeights headNumber now heightMap1 = sampleHeights headNumber now heightMap) ∧
    (∀ sh : SyncHeight, isInt64 sh.Time → sh.Time + 66 ≤ maxInt64 →
      (fresh now sh = true ↔ now - sh.Time ≤ 66)) := by
  refine ⟨sampleHeights_sorted _ _ _, ?_, sampleHeights_perm _ _ _, ?_, ?_⟩
  · rw [(sampleHeights_perm headNumber now heightMap).length_eq, List.length_cons,
      freshHeights_length]
    omega
  · intro heightMap1 hp
    exact sampleHeights_unique _ _ _ _ (sampleHeights_sorted _ _ _)
      ((sampleHeights_perm _ _ _).trans (List.Perm.cons _ (freshHeights_perm now hp.symm)))
  · intro sh h1 h2
    exact fresh_iff_exact now sh h1 h2

/-- C3 witness: two fresh entries and one stale one, visited in two orders. -/
theorem sampleHeights_sorted_count_witness :
    sampleHeights 100 1000 [("a", ⟨108, 990⟩), ("s", ⟨500, 10⟩), ("b", ⟨105, 995⟩)] =
      [100, 105, 108] ∧
    sampleHeights 100 1000 [("b", ⟨105, 995⟩), ("a", ⟨108, 990⟩), ("s", ⟨500, 10⟩)] =
      sampleHeights 100 1000 [("a", ⟨108, 990⟩), ("s", ⟨500, 10⟩), ("b", ⟨105, 995⟩)] ∧
    (fresh 1000 ⟨108, 990⟩ = true ↔ (1000 : Int) - 990 ≤ 66) :=
  ⟨by decide,
   (sampleHeights_sorted_count 100 1000
      [("a", ⟨108, 990⟩), ("s", ⟨500, 10⟩), ("b", ⟨105, 995⟩)]).2.2.2.1
      [("b", ⟨105, 995⟩), ("a", ⟨108, 990⟩), ("s", ⟨500, 10⟩)] (by decide),
   (sampleHeights_sorted_count 100 1000 []).2.2.2.2 ⟨108, 990⟩ (by decide) (by decide)⟩

/-- C4 (as stated) fails: with an empty registry, a chain of 11 blocks and a
cache head numbered 100, the only sample is the cache head number 100, which
exceeds 10 + 55, so `checkSync` returns true and the mode becomes Sync. -/
theorem checkSync_no_fresh_counterexample :
    (∀ e ∈ (exState 11 100 90 []).heightMap, fresh 1000 e.2 = false) ∧
    (exState 11 100 90 []).mode = Mode.ModeNormal ∧
    (checkSync (exState 11 100 90 []) 1000).1 = true ∧
    (checkSync (exState 11 100 90 []) 1000).2.mode = Mode.ModeSync := by
  refine ⟨?_, rfl, by decide, by decide⟩
  intro e he
  cases he

/-- C4 (amended): when no registry entry passes the freshness test the only
sample is the cache head number, which is then the net height; `checkSync`
returns true exactly when the mode is Normal and the cache head number exceeds
`local_head + 55` (`local_head` being the chain length minus 1), and whenever
the cache head number is at most `local_head + 55` it returns false and leaves
the mode unchanged. -/
theorem checkSync_no_fresh (sy : SyncImpl) (now : Int)
    (h : ∀ e ∈ sy.heightMap, fresh now e.2 = false) :
    sampleHeights sy.blockCache.Head.Number now sy.heightMap = [sy.blockCache.Head.Number] ∧
    netHeight sy.blockCache.Head.Number now sy.heightMap = sy.blockCache.Head.Number ∧
    ((checkSync sy now).1 = true ↔
      sy.mode = Mode.ModeNormal ∧
        sy.blockCache.Head.Number > add64 (sub64 sy.blockChain.Length 1) 55) ∧
    (sy.blockCache.Head.Number ≤ add64 (sub64 sy.blockChain.Length 1) 55 →
      (checkSync sy now).1 = false ∧ (checkSync sy now).2.mode = sy.mode) := by
  have hs : sampleHeights sy.blockCache.Head.Number now sy.heightMap =
      [sy.blockCache.Head.Number] := by
    rw [sampleHeights_eq, freshHeights_nil now sy.heightMap h]
    rfl
  have hn : netHeight sy.blockCache.Head.Number now sy.heightMap =
      sy.blockCache.Head.Number := by
    unfold netHeight
    rw [hs]
    simp
  have hiff := checkSync_fst sy now
  rw [hn] at hiff
  refine ⟨hs, hn, hiff, ?_⟩
  intro hle
  have hf : (checkSync sy now).1 = false := by
    cases hb : (checkSync sy now).1 with
    | false => rfl
    | true =>
      have := (hiff.1 hb).2
      have h55 : syncNumber = 55 := by decide
      rw [h55] at this
      omega
  exact ⟨hf, (checkSync_of_false sy now hf).1⟩

/-- C4 witness: a stale entry only, cache head equal to the local head. -/
theorem checkSync_no_fresh_witness :
    (checkSync (exState 101 100 2 [("s", ⟨500, 10⟩)]) 1000).1 = false ∧
    (checkSync (exState 101 100 2 [("s", ⟨500, 10⟩)]) 1000).2.mode = Mode.ModeNormal :=
  (checkSync_no_fresh (exState 101 100 2 [("s", ⟨500, 10⟩)]) 1000 (by decide)).2.2.2
    (by decide)


/-! ## Lemmas: syncBlocks -/

theorem add64_exact {a b : Int} (h1 : minInt64 ≤ a + b) (h2 : a + b ≤ maxInt64) :
    add64 a b = a + b :=
  wrap64_of_isInt64 ⟨h1, h2⟩

theorem sub64_exact {a b : Int} (h1 : minInt64 ≤ a - b) (h2 : a - b ≤ maxInt64) :
    sub64 a b = a - b :=
  wrap64_of_isInt64 ⟨h1, h2⟩

theorem mem_reqMapStore (m : List Int) (i x : Int) :
    x ∈ reqMapStore m i ↔ x ∈ m ∨ x = i := by
  unfold reqMapStore
  by_cases h : i ∈ m
  · simp only [h, if_true]
    constructor
    · exact Or.inl
    · rintro (hx | hx)
      · exact hx
      · rw [hx]; exact h
  · simp [h]

theorem replayReqMap_append (t1 : List Effect) :
    ∀ (pending : List Int) (t2 : List Effect),
      replayReqMap pending (t1 ++ t2) = replayReqMap (replayReqMap pending t1) t2 := by
  induction t1 with
  | nil => intro pending t2; rfl
  | cons ef t1 ih =>
    intro pending t2
    cases ef <;> simp [replayReqMap, ih]

theorem pendingWhenQueried_append (t1 : List Effect) :
    ∀ (pending : List Int) (t2 : List Effect),
      pendingWhenQueried pending (t1 ++ t2) ↔
        pendingWhenQueried pending t1 ∧ pendingWhenQueried (replayReqMap pending t1) t2 := by
  induction t1 with
  | nil => intro pending t2; simp [pendingWhenQueried, replayReqMap]
  | cons ef t1 ih =>
    intro pending t2
    cases ef with
    | Broadcast data typ pri =>
      cases data <;> simp [pendingWhenQueried, replayReqMap, ih, and_assoc]
    | SendToPeer peer data typ pri => simp [pendingWhenQueried, replayReqMap, ih]
    | Reset => simp [pendingWhenQueried, replayReqMap, ih]
    | CreateMission hash number peer => simp [pendingWhenQueried, replayReqMap, ih]
    | goSyncBlocks a b => simp [pendingWhenQueried, replayReqMap, ih]
    | reqMapStore n => simp [pendingWhenQueried, replayReqMap, ih]
    | reqMapDelete n => simp [pendingWhenQueried, replayReqMap, ih]

theorem p2pCalls_append (t1 t2 : List Effect) :
    p2pCalls (t1 ++ t2) = p2pCalls t1 ++ p2pCalls t2 := by
  simp [p2pCalls]

theorem p2pCalls_storeEffects (n : Nat) : ∀ i : Int, p2pCalls (storeEffects i n) = [] := by
  induction n with
  | zero => intro i; rfl
  | succ n ih =>
    intro i
    have := ih (i + 1)
    simp only [p2pCalls] at this ⊢
    simp [storeEffects, this]

theorem pendingWhenQueried_storeEffects (n : Nat) :
    ∀ (pending : List Int) (i : Int), pendingWhenQueried pending (storeEffects i n) := by
  induction n with
  | zero => intro pending i; simp [storeEffects, pendingWhenQueried]
  | succ n ih => intro pending i; simp [storeEffects, pendingWhenQueried, ih]

theorem mem_replay_storeEffects (n : Nat) :
    ∀ (pending : List Int) (i x : Int),
      x ∈ replayReqMap pending (storeEffects i n) ↔ x ∈ pending ∨ (i ≤ x ∧ x < i + n) := by
  induction n with
  | zero =>
    intro pending i x
    simp only [storeEffects, replayReqMap]
    constructor
    · exact Or.inl
    · rintro (h | h)
      · exact h
      · omega
  | succ n ih =>
    intro pending i x
    simp only [storeEffects, replayReqMap]
    rw [ih, mem_reqMapStore]
    push_cast
    constructor
    · rintro ((h | h) | h)
      · exact Or.inl h
      · exact Or.inr (by omega)
      · exact Or.inr (by omega)
    · rintro (h | h)
      · exact Or.inl (Or.inl h)
      · by_cases hx : x = i
        · exact Or.inl (Or.inr hx)
        · exact Or.inr (by omega)

theorem applyTrace_nil (sy : SyncImpl) : applyTrace sy [] = sy := by
  cases sy
  simp [applyTrace, replayReqMap]

theorem applyTrace_append (sy : SyncImpl) (t1 t2 : List Effect) :
    applyTrace (applyTrace sy t1) t2 = applyTrace sy (t1 ++ t2) := by
  simp [applyTrace, replayReqMap_append]

theorem storeRange_eq (n : Nat) :
    ∀ (sy : SyncImpl) (i : Int), storeRange sy i n = applyTrace sy (storeEffects i n) := by
  induction n with
  | zero => intro sy i; simp [storeRange, storeEffects, applyTrace_nil]
  | succ n ih =>
    intro sy i
    simp only [storeRange, storeEffects, ih]
    simp [applyTrace, storeReq, replayReqMap]

theorem storeLoopLt_run (n : Nat) :
    ∀ (fuel : Nat) (i hi : Int) (sy : SyncImpl), minInt64 ≤ i → hi ≤ maxInt64 →
      hi - i = n → n < fuel → storeLoopLt fuel i hi sy = .ok (storeRange sy i n) := by
  induction n with
  | zero =>
    intro fuel i hi sy _ _ hn hf
    obtain ⟨f, rfl⟩ : ∃ f, fuel = f + 1 := ⟨fuel - 1, by omega⟩
    have : ¬ i < hi := by omega
    simp [storeLoopLt, this, storeRange]
  | succ n ih =>
    intro fuel i hi sy h1 h2 hn hf
    obtain ⟨f, rfl⟩ : ∃ f, fuel = f + 1 := ⟨fuel - 1, by omega⟩
    have hlt : i < hi := by omega
    have hadd : add64 i 1 = i + 1 := add64_exact (by omega) (by omega)
    simp only [storeLoopLt, hlt, if_true, hadd, storeRange]
    exact ih f (i + 1) hi (storeReq sy i) (by omega) h2 (by push_cast at hn; omega) (by omega)

theorem storeLoopLe_run (n : Nat) :
    ∀ (fuel : Nat) (i e : Int) (sy : SyncImpl), minInt64 ≤ i → e < maxInt64 →
      e + 1 - i = n → n < fuel → storeLoopLe fuel i e sy = .ok (storeRange sy i n) := by
  induction n with
  | zero =>
    intro fuel i e sy _ _ hn hf
    obtain ⟨f, rfl⟩ : ∃ f, fuel = f + 1 := ⟨fuel - 1, by omega⟩
    have : ¬ i ≤ e := by omega
    simp [storeLoopLe, this, storeRange]
  | succ n ih =>
    intro fuel i e sy h1 h2 hn hf
    obtain ⟨f, rfl⟩ : ∃ f, fuel = f + 1 := ⟨fuel - 1, by omega⟩
    have hle : i ≤ e := by omega
    have hadd : add64 i 1 = i + 1 := add64_exact (by omega) (by omega)
    simp only [storeLoopLe, hle, if_true, hadd, storeRange]
    exact ih f (i + 1) e (storeReq sy i) (by omega) h2 (by push_cast at hn; omega) (by omega)


theorem queryBlockHash_eq (sy : SyncImpl) (q : BlockHashQuery) :
    queryBlockHash sy q = applyTrace sy [queryBroadcast q] :=
  rfl

theorem syncBlocksRound_run (inner : Nat) (s : Int) (sy : SyncImpl)
    (h1 : minInt64 ≤ s) (h2 : s + 100 ≤ maxInt64) (hi : 100 < inner) :
    syncBlocksRound inner s sy =
      .ok (s + 100, applyTrace sy (storeEffects s 100 ++ [rangeBroadcast s (s + 99)])) := by
  have hadd : add64 s maxBlockHashQueryNumber = s + 100 :=
    add64_exact (by unfold maxBlockHashQueryNumber; omega)
      (by unfold maxBlockHashQueryNumber; omega)
  have hsub : sub64 (s + 100) 1 = s + 99 := by
    rw [sub64_exact (by omega) (by omega)]
    omega
  unfold syncBlocksRound
  rw [hadd, hsub, storeLoopLt_run 100 inner s (s + 100) sy h1 h2 (by push_cast; omega) hi]
  simp only [queryBlockHash_eq, storeRange_eq, applyTrace_append]
  rfl

theorem syncBlocksLoop_run (inner : Nat) (hi : 100 < inner) (k : Nat) :
    ∀ (fuel : Nat) (s e : Int) (sy : SyncImpl), minInt64 ≤ s → s + 100 ≤ maxInt64 →
      (k = 0 ∨ e + 100 ≤ maxInt64) → e - s < 100 * ((k : Int) + 1) →
      (k = 0 ∨ 100 * (k : Int) ≤ e - s) → k < fuel →
      ∃ sy1, syncBlocksLoop inner fuel s e sy = .ok (s + 100 * (k : Int), sy1) ∧
        applyTrace sy1 (specTrace (s + 100 * (k : Int)) e 0) = applyTrace sy (specTrace s e k) := by
  induction k with
  | zero =>
    intro fuel s e sy h1 h2 _ hlt _ hf
    obtain ⟨f, rfl⟩ : ∃ f, fuel = f + 1 := ⟨fuel - 1, by omega⟩
    have hadd : add64 s maxBlockHashQueryNumber = s + 100 :=
      add64_exact (by unfold maxBlockHashQueryNumber; omega)
        (by unfold maxBlockHashQueryNumber; omega)
    have hsub : sub64 (s + 100) 1 = s + 99 := by
      rw [sub64_exact (by omega) (by omega)]
      omega
    have hc : ¬ e > s + 99 := by push_cast at hlt; omega
    refine ⟨sy, ?_, ?_⟩
    · simp only [syncBlocksLoop, hadd, hsub, hc, if_false]
      simp
    · simp
  | succ k ih =>
    intro fuel s e sy h1 h2 h3 hlt hge hf
    obtain ⟨f, rfl⟩ : ∃ f, fuel = f + 1 := ⟨fuel - 1, by omega⟩
    have hadd : add64 s maxBlockHashQueryNumber = s + 100 :=
      add64_exact (by unfold maxBlockHashQueryNumber; omega)
        (by unfold maxBlockHashQueryNumber; omega)
    have hsub : sub64 (s + 100) 1 = s + 99 := by
      rw [sub64_exact (by omega) (by omega)]
      omega
    have hge1 : 100 * ((k : Int) + 1) ≤ e - s := by
      rcases hge with h | h
      · omega
      · push_cast at h; exact h
    have hc : e > s + 99 := by omega
    obtain ⟨sy1, hrun, htr⟩ :=
      ih f (s + 100) e (applyTrace sy (storeEffects s 100 ++ [rangeBroadcast s (s + 99)]))
        (by omega) (by omega) (by omega) (by push_cast at hlt; omega) (by omega) (by omega)
    have hs : s + 100 * ((k + 1 : Nat) : Int) = s + 100 + 100 * (k : Int) := by
      push_cast; ring
    refine ⟨sy1, ?_, ?_⟩
    · simp only [syncBlocksLoop, hadd, hsub, hc, if_true, syncBlocksRound_run inner s sy h1 h2 hi]
      rw [hs]
      exact hrun
    · rw [hs, htr, applyTrace_append]
      simp [specTrace]

/-- The number of full rounds `syncBlocks(s, e)` makes when nothing overflows. -/
theorem rounds_bounds (s e : Int) :
    e - s < 100 * ((((e - s) / 100).toNat : Int) + 1) ∧
      (((e - s) / 100).toNat = 0 ∨ 100 * (((e - s) / 100).toNat : Int) ≤ e - s) := by
  omega

theorem syncBlocks_run (sy : SyncImpl) (s e : Int) (k : Nat)
    (h1 : minInt64 ≤ s) (h2 : s + 100 ≤ maxInt64) (h3 : k = 0 ∨ e + 100 ≤ maxInt64)
    (hlt : e - s < 100 * ((k : Int) + 1)) (hge : k = 0 ∨ 100 * (k : Int) ≤ e - s)
    (fuel : Nat) (hf : k + 101 ≤ fuel) :
    syncBlocks fuel sy s e = .ok (applyTrace { sy with syncEnd := e } (specTrace s e k)) := by
  obtain ⟨syL, hrun, htr⟩ :=
    syncBlocksLoop_run fuel (by omega) k fuel s e { sy with syncEnd := e } h1 h2 h3 hlt hge
      (by omega)
  rw [← htr]
  by_cases hle : s + 100 * (k : Int) ≤ e
  · have hn : e + 1 - (s + 100 * (k : Int)) = ((e + 1 - (s + 100 * (k : Int))).toNat : Int) := by
      omega
    have hst := storeLoopLe_run (e + 1 - (s + 100 * (k : Int))).toNat fuel (s + 100 * (k : Int)) e
      syL (by omega) (by omega) hn (by omega)
    simp only [syncBlocks, hrun, hle, if_true, hst, queryBlockHash_eq, storeRange_eq,
      applyTrace_append, specTrace]
    rfl
  · simp only [syncBlocks, hrun, hle, if_false, specTrace, applyTrace_nil]


/-! ## Lemmas: the batches of syncBlocks -/

theorem p2pCalls_queryBroadcast (q : BlockHashQuery) :
    p2pCalls [queryBroadcast q] = [queryBroadcast q] :=
  rfl

theorem p2pCalls_specTrace (k : Nat) :
    ∀ s e : Int, p2pCalls (specTrace s e k) = (specQueries s e k).map queryBroadcast := by
  induction k with
  | zero =>
    intro s e
    by_cases h : s ≤ e
    · simp only [specTrace, specQueries, h, if_true, p2pCalls_append, p2pCalls_storeEffects]
      rfl
    · simp only [specTrace, specQueries, h, if_false]
      rfl
  | succ k ih =>
    intro s e
    have hcons : storeEffects s 100 ++ rangeBroadcast s (s + 99) :: specTrace (s + 100) e k =
        storeEffects s 100 ++ ([rangeBroadcast s (s + 99)] ++ specTrace (s + 100) e k) := rfl
    simp only [specTrace, specQueries, hcons, p2pCalls_append, p2pCalls_storeEffects, ih,
      List.map_cons, List.nil_append]
    rfl

theorem pendingWhenQueried_batch (pending : List Int) (s e : Int) (n : Nat) (rest : List Effect)
    (hn : e < s + n) :
    pendingWhenQueried pending (storeEffects s n ++ rangeBroadcast s e :: rest) ↔
      pendingWhenQueried (replayReqMap pending (storeEffects s n)) rest := by
  rw [pendingWhenQueried_append]
  simp only [pendingWhenQueried_storeEffects, true_and, rangeBroadcast, pendingWhenQueried]
  constructor
  · exact fun h => h.2
  · intro h
    refine ⟨fun x hx1 hx2 => ?_, h⟩
    rw [mem_replay_storeEffects]
    exact Or.inr ⟨hx1, by omega⟩

theorem replayReqMap_batch (pending : List Int) (s e : Int) (n : Nat) (rest : List Effect) :
    replayReqMap pending (storeEffects s n ++ rangeBroadcast s e :: rest) =
      replayReqMap (replayReqMap pending (storeEffects s n)) rest := by
  rw [replayReqMap_append]
  rfl

theorem pendingWhenQueried_specTrace (k : Nat) :
    ∀ (pending : List Int) (s e : Int), pendingWhenQueried pending (specTrace s e k) := by
  induction k with
  | zero =>
    intro pending s e
    by_cases h : s ≤ e
    · simp only [specTrace, h, if_true]
      rw [pendingWhenQueried_batch pending s e _ [] (by omega)]
      simp [pendingWhenQueried]
    · simp [specTrace, h, pendingWhenQueried]
  | succ k ih =>
    intro pending s e
    simp only [specTrace]
    rw [pendingWhenQueried_batch pending s (s + 99) 100 _ (by omega)]
    exact ih _ _ _

theorem mem_replay_specTrace (k : Nat) :
    ∀ (pending : List Int) (s e x : Int), (k = 0 ∨ 100 * (k : Int) ≤ e - s) →
      (x ∈ replayReqMap pending (specTrace s e k) ↔ x ∈ pending ∨ (s ≤ x ∧ x ≤ e)) := by
  induction k with
  | zero =>
    intro pending s e x _
    by_cases h : s ≤ e
    · simp only [specTrace, h, if_true]
      rw [replayReqMap_batch]
      simp only [replayReqMap]
      rw [mem_replay_storeEffects]
      constructor
      · rintro (hx | hx)
        · exact Or.inl hx
        · exact Or.inr ⟨hx.1, by omega⟩
      · rintro (hx | hx)
        · exact Or.inl hx
        · exact Or.inr ⟨hx.1, by omega⟩
    · simp only [specTrace, h, if_false, replayReqMap]
      constructor
      · exact Or.inl
      · rintro (hx | hx)
        · exact hx
        · omega
  | succ k ih =>
    intro pending s e x hge
    have hge1 : 100 * ((k : Int) + 1) ≤ e - s := by
      rcases hge with h | h
      · omega
      · push_cast at h; exact h
    simp only [specTrace]
    rw [replayReqMap_batch, ih _ (s + 100) e x (by omega), mem_replay_storeEffects]
    constructor
    · rintro ((hx | hx) | hx)
      · exact Or.inl hx
      · exact Or.inr ⟨hx.1, by omega⟩
      · exact Or.inr ⟨by omega, hx.2⟩
    · rintro (hx | hx)
      · exact Or.inl (Or.inl hx)
      · by_cases hlt : x < s + 100
        · exact Or.inl (Or.inr ⟨hx.1, by omega⟩)
        · exact Or.inr ⟨by omega, hx.2⟩

theorem specQueries_head (k : Nat) (s e : Int) :
    ∀ q ∈ (specQueries s e k).head?, q.Start = s := by
  cases k with
  | zero =>
    by_cases h : s ≤ e
    · simp [specQueries, h]
    · simp [specQueries, h]
  | succ k => simp [specQueries]

theorem specQueries_ne_nil (k : Nat) (s e : Int) (h : s ≤ e) : specQueries s e k ≠ [] := by
  cases k with
  | zero => simp [specQueries, h]
  | succ k => simp [specQueries]

theorem specQueries_shape (k : Nat) :
    ∀ s e : Int, e - s < 100 * ((k : Int) + 1) → (k = 0 ∨ 100 * (k : Int) ≤ e - s) →
      (∀ q ∈ specQueries s e k,
        q.ReqType = RequireType_GETBLOCKHASHES ∧ q.Nums = [] ∧ q.Start ≤ q.End ∧
          q.End - q.Start + 1 ≤ 100) ∧
      (∀ q ∈ (specQueries s e k).dropLast, q.End - q.Start + 1 = 100) ∧
      (specQueries s e k).Chain' (fun a b => b.Start = a.End + 1) ∧
      (∀ n : Int, (∃ q ∈ specQueries s e k, q.Start ≤ n ∧ n ≤ q.End) ↔ (s ≤ n ∧ n ≤ e)) ∧
      (specQueries s e k).Pairwise (fun a b => a.End < b.Start) := by
  induction k with
  | zero =>
    intro s e hlt _
    by_cases h : s ≤ e
    · simp only [specQueries, h, if_true]
      refine ⟨?_, ?_, ?_, ?_, List.pairwise_singleton _ _⟩
      · intro q hq
        rw [List.mem_singleton] at hq
        subst hq
        exact ⟨rfl, rfl, h, by simp only; push_cast at hlt; omega⟩
      · intro q hq
        simp at hq
      · exact List.chain'_singleton _
      · intro n
        simp
    · simp only [specQueries, h, if_false]
      refine ⟨?_, ?_, List.chain'_nil, ?_, List.Pairwise.nil⟩
      · intro q hq; cases hq
      · intro q hq; simp at hq
      · intro n
        constructor
        · rintro ⟨q, hq, -⟩; cases hq
        · intro hn; omega
  | succ k ih =>
    intro s e hlt hge
    have hge1 : 100 * ((k : Int) + 1) ≤ e - s := by
      rcases hge with h | h
      · omega
      · push_cast at h; exact h
    obtain ⟨ih1, ih2, ih3, ih4, ih5⟩ := ih (s + 100) e (by push_cast at hlt; omega) (by omega)
    have hne : specQueries (s + 100) e k ≠ [] := specQueries_ne_nil k _ _ (by omega)
    simp only [specQueries]
    refine ⟨?_, ?_, ?_, ?_, ?_⟩
    rotate_right
    · refine List.pairwise_cons.2 ⟨?_, ih5⟩
      intro b hb
      have h1 := (ih1 b hb).2.2.1
      have h2 := (ih4 b.Start).1 ⟨b, hb, le_refl _, h1⟩
      simp only
      omega
    · intro q hq
      rcases List.mem_cons.1 hq with hq | hq
      · subst hq
        exact ⟨rfl, rfl, by simp only; omega, by simp only; omega⟩
      · exact ih1 q hq
    · intro q hq
      rw [List.dropLast_cons_of_ne_nil hne] at hq
      rcases List.mem_cons.1 hq with hq | hq
      · subst hq
        simp only
        omega
      · exact ih2 q hq
    · rw [List.chain'_cons']
      refine ⟨?_, ih3⟩
      intro q hq
      rw [specQueries_head k (s + 100) e q hq]
      simp only
      omega
    · intro n
      constructor
      · rintro ⟨q, hq, hn⟩
        rcases List.mem_cons.1 hq with hq | hq
        · subst hq
          simp only at hn
          omega
        · have := (ih4 n).1 ⟨q, hq, hn⟩
          omega
      · intro hn
        by_cases hlt2 : n < s + 100
        · exact ⟨_, List.mem_cons_self _ _, by simp only; omega⟩
        · obtain ⟨q, hq, hq2⟩ := (ih4 n).2 ⟨by omega, hn.2⟩
          exact ⟨q, List.mem_cons_of_mem _ hq, hq2⟩


theorem syncBlocksLoop_step (inner fuel : Nat) (s e : Int) (sy : SyncImpl)
    (h : e > sub64 (add64 s maxBlockHashQueryNumber) 1) :
    syncBlocksLoop inner (fuel + 1) s e sy =
      (syncBlocksRound inner s sy).bind (fun r => syncBlocksLoop inner fuel r.1 e r.2) := by
  simp only [syncBlocksLoop, h, if_true]
  cases syncBlocksRound inner s sy with
  | error f => rfl
  | ok r => rfl

theorem syncBlocks_total (sy : SyncImpl) (s e : Int)
    (h1 : isInt64 s) (h2 : s + 100 ≤ maxInt64)
    (h3 : ((e - s) / 100).toNat = 0 ∨ e + 100 ≤ maxInt64) (fuel : Nat)
    (hf : ((e - s) / 100).toNat + 101 ≤ fuel) :
    syncBlocks fuel sy s e =
      .ok (applyTrace { sy with syncEnd := e } (specTrace s e ((e - s) / 100).toNat)) :=
  syncBlocks_run sy s e _ h1.1 h2 h3 (rounds_bounds s e).1 (rounds_bounds s e).2 fuel hf

/-! ## Theorems: syncBlocks -/

theorem syncBlocksRound_fst (inner : Nat) (s : Int) (sy : SyncImpl) (r : Int × SyncImpl)
    (h : syncBlocksRound inner s sy = .ok r) : r.1 = add64 s maxBlockHashQueryNumber := by
  unfold syncBlocksRound at h
  split at h
  · cases h
  · cases h
    rfl

theorem syncBlocksLoop_two_rounds (inner fuel : Nat) (s e : Int) (sy : SyncImpl)
    (h1 : e > sub64 (add64 s maxBlockHashQueryNumber) 1)
    (h2 : e > sub64 (add64 (add64 s maxBlockHashQueryNumber) maxBlockHashQueryNumber) 1) :
    syncBlocksLoop inner (fuel + 2) s e sy =
      ((syncBlocksRound inner s sy).bind (fun r => syncBlocksRound inner r.1 r.2)).bind
        (fun r => syncBlocksLoop inner fuel r.1 e r.2) := by
  rw [syncBlocksLoop_step inner (fuel + 1) s e sy h1]
  cases hr : syncBlocksRound inner s sy with
  | error f => rfl
  | ok r =>
    have hs := syncBlocksRound_fst inner s sy r hr
    simp only [Except.bind]
    rw [syncBlocksLoop_step inner fuel r.1 e r.2 (by rw [hs]; exact h2)]
    rfl

/-- C5 (as stated) fails: with `s = 2^63 - 151` (so `s + 100` does not
overflow) and `e = 2^63 - 21`, the loop test holds at `s`, the first round
queries `[s, s + 99]` and moves to `s + 100`, the test holds again because
`s + 100 + 99` wraps, and the second round broadcasts a query whose `End`
(`-2^63 + 48`) lies below its `Start` (`2^63 - 51`): an empty interval, not
a part of `[s, e]`. Every run of the loop of `syncBlocks(s, e)` starts with
these two rounds. -/
theorem syncBlocks_queries_counterexample :
    (9223372036854775657 : Int) + 100 ≤ maxInt64 ∧
    (9223372036854775787 : Int) > sub64 (add64 9223372036854775657 maxBlockHashQueryNumber) 1 ∧
    (syncBlocksRound 101 9223372036854775657 (exState 101 100 2 [])).toOption.map
      (fun r => r.1) = some 9223372036854775757 ∧
    (9223372036854775787 : Int) > sub64 (add64 9223372036854775757 maxBlockHashQueryNumber) 1 ∧
    ((syncBlocksRound 101 9223372036854775657 (exState 101 100 2 [])).bind
      (fun r => syncBlocksRound 101 r.1 r.2)).toOption.map (fun r => p2pCalls r.2.trace) =
      some [rangeBroadcast 9223372036854775657 9223372036854775756,
        rangeBroadcast 9223372036854775757 (-9223372036854775760)] ∧
    (∀ inner fuel : Nat,
      syncBlocksLoop inner (fuel + 2) 9223372036854775657 9223372036854775787
          (exState 101 100 2 []) =
        ((syncBlocksRound inner 9223372036854775657 (exState 101 100 2 [])).bind
          (fun r => syncBlocksRound inner r.1 r.2)).bind
          (fun r => syncBlocksLoop inner fuel r.1 9223372036854775787 r.2)) := by
  refine ⟨by decide, by decide, by decide, by decide, ?_, ?_⟩
  · set_option maxRecDepth 100000 in decide
  · intro inner fuel
    exact syncBlocksLoop_two_rounds inner fuel _ _ _ (by decide) (by decide)

/-- C5 (amended): for every start `s` and end `e` such that neither `s + 100`
nor `e + 100` overflows int64 (the backpressure wait being taken to end),
`syncBlocks(s, e)` returns, and the calls it makes to the p2p service are
exactly the broadcasts of a list of queries which are all of type Range with
no nums, each non-empty and covering at most 100 numbers, every one but the
last covering exactly 100, each starting right after the previous one ends,
pairwise disjoint and ascending, and together covering exactly the numbers of
`[s, e]` (no query when `e < s`). -/
theorem syncBlocks_queries (sy : SyncImpl) (s e : Int)
    (h1 : isInt64 s) (h2 : s + 100 ≤ maxInt64) (h3 : e + 100 ≤ maxInt64) :
    ∃ (fuel0 : Nat) (sy1 : SyncImpl) (qs : List BlockHashQuery),
      (∀ fuel, fuel0 ≤ fuel → syncBlocks fuel sy s e = .ok sy1) ∧
      p2pCalls sy1.trace = p2pCalls sy.trace ++ qs.map queryBroadcast ∧
      (∀ q ∈ qs, q.ReqType = RequireType_GETBLOCKHASHES ∧ q.Nums = [] ∧ q.Start ≤ q.End ∧
        q.End - q.Start + 1 ≤ 100) ∧
      (∀ q ∈ qs.dropLast, q.End - q.Start + 1 = 100) ∧
      qs.Chain' (fun a b => b.Start = a.End + 1) ∧
      qs.Pairwise (fun a b => a.End < b.Start) ∧
      (∀ n : Int, (∃ q ∈ qs, q.Start ≤ n ∧ n ≤ q.End) ↔ (s ≤ n ∧ n ≤ e)) ∧
      (e < s → qs = []) := by
  obtain ⟨hq1, hq2, hq3, hq4, hq5⟩ :=
    specQueries_shape ((e - s) / 100).toNat s e (rounds_bounds s e).1 (rounds_bounds s e).2
  refine ⟨((e - s) / 100).toNat + 101, _, specQueries s e ((e - s) / 100).toNat,
    fun fuel hf => syncBlocks_total sy s e h1 h2 (Or.inr h3) fuel hf, ?_, hq1, hq2, hq3, hq5,
    hq4, ?_⟩
  · simp only [applyTrace, p2pCalls_append, p2pCalls_specTrace]
  · intro hlt
    have hk : ((e - s) / 100).toNat = 0 := by omega
    rw [hk]
    simp [specQueries, not_le.2 hlt]

/-- C5 witness: the spec scenario `syncBlocks(101, 210)` broadcasts the
queries `[101, 200]` and `[201, 210]`. -/
theorem syncBlocks_queries_witness :
    (isInt64 101 ∧ (101 : Int) + 100 ≤ maxInt64 ∧ (210 : Int) + 100 ≤ maxInt64) ∧
    (∃ (fuel0 : Nat) (sy1 : SyncImpl) (qs : List BlockHashQuery),
      (∀ fuel, fuel0 ≤ fuel → syncBlocks fuel (exState 101 100 2 []) 101 210 = .ok sy1) ∧
      p2pCalls sy1.trace = p2pCalls (exState 101 100 2 []).trace ++ qs.map queryBroadcast ∧
      (∀ q ∈ qs, q.ReqType = RequireType_GETBLOCKHASHES ∧ q.Nums = [] ∧ q.Start ≤ q.End ∧
        q.End - q.Start + 1 ≤ 100) ∧
      (∀ q ∈ qs.dropLast, q.End - q.Start + 1 = 100) ∧
      qs.Chain' (fun a b => b.Start = a.End + 1) ∧
      qs.Pairwise (fun a b => a.End < b.Start) ∧
      (∀ n : Int, (∃ q ∈ qs, q.Start ≤ n ∧ n ≤ q.End) ↔ (101 ≤ n ∧ n ≤ 210)) ∧
      ((210 : Int) < 101 → qs = [])) ∧
    (syncBlocks 102 (exState 101 100 2 []) 101 210).toOption.map
        (fun sy1 => p2pCalls sy1.trace) =
      some [rangeBroadcast 101 200, rangeBroadcast 201 210] :=
  ⟨⟨by decide, by decide, by decide⟩,
   syncBlocks_queries (exState 101 100 2 []) 101 210 (by decide) (by decide) (by decide),
   by set_option maxRecDepth 100000 in decide⟩

/-- C6 (as stated) fails: `e - s + 1 <= 100` also holds when `e < s`, and
then `syncBlocks` emits no query at all (here `s = 5`, `e = 3`). It also fails
for `s <= e` when `s + 99` overflows: with `s = 2^63 - 11`, `e = 2^63 - 6` the
loop test holds after wrap-around and the round broadcasts the query
`[s, -2^63 + 88]` instead of `[s, e]`. -/
theorem syncBlocks_single_counterexample :
    ((3 : Int) - 5 + 1 ≤ 100) ∧
    (syncBlocks 10 (exState 101 100 2 []) 5 3).toOption.map (fun sy1 => p2pCalls sy1.trace) =
      some [] ∧
    ((9223372036854775802 : Int) - 9223372036854775797 + 1 ≤ 100) ∧
    (9223372036854775802 : Int) >
      sub64 (add64 9223372036854775797 maxBlockHashQueryNumber) 1 ∧
    (syncBlocksRound 101 9223372036854775797 (exState 101 100 2 [])).toOption.map
        (fun r => p2pCalls r.2.trace) =
      some [rangeBroadcast 9223372036854775797 (-9223372036854775720)] := by
  refine ⟨by decide, by decide, by decide, by decide, by decide⟩

/-- C6 (amended): for every `s` and `e` with `e - s + 1 <= 100` and `s + 100`
not overflowing int64, `syncBlocks(s, e)` returns; when `s <= e` the calls it
makes to the p2p service are exactly one broadcast, of the Range query
`[s, e]`, and when `e < s` it makes none. -/
theorem syncBlocks_single (sy : SyncImpl) (s e : Int)
    (h1 : isInt64 s) (h2 : s + 100 ≤ maxInt64) (h3 : e - s + 1 ≤ 100) :
    ∃ (fuel0 : Nat) (sy1 : SyncImpl),
      (∀ fuel, fuel0 ≤ fuel → syncBlocks fuel sy s e = .ok sy1) ∧
      (s ≤ e → p2pCalls sy1.trace = p2pCalls sy.trace ++
        [queryBroadcast
          { ReqType := RequireType_GETBLOCKHASHES, Start := s, End := e, Nums := [] }]) ∧
      (e < s → p2pCalls sy1.trace = p2pCalls sy.trace) := by
  have hk : ((e - s) / 100).toNat = 0 := by omega
  refine ⟨((e - s) / 100).toNat + 101, _,
    fun fuel hf => syncBlocks_total sy s e h1 h2 (Or.inl hk) fuel hf, ?_, ?_⟩
  · intro hle
    simp only [applyTrace, p2pCalls_append, p2pCalls_specTrace, hk, specQueries, hle, if_true]
    rfl
  · intro hlt
    simp only [applyTrace, p2pCalls_append, p2pCalls_specTrace, hk, specQueries, not_le.2 hlt,
      if_false]
    simp

/-- C6 witness: `syncBlocks(201, 210)` makes the single broadcast `[201, 210]`. -/
theorem syncBlocks_single_witness :
    (isInt64 201 ∧ (201 : Int) + 100 ≤ maxInt64 ∧ (210 : Int) - 201 + 1 ≤ 100) ∧
    (∃ (fuel0 : Nat) (sy1 : SyncImpl),
      (∀ fuel, fuel0 ≤ fuel → syncBlocks fuel (exState 101 100 2 []) 201 210 = .ok sy1) ∧
      ((201 : Int) ≤ 210 → p2pCalls sy1.trace = p2pCalls (exState 101 100 2 []).trace ++
        [queryBroadcast
          { ReqType := RequireType_GETBLOCKHASHES, Start := 201, End := 210, Nums := [] }]) ∧
      ((210 : Int) < 201 → p2pCalls sy1.trace = p2pCalls (exState 101 100 2 []).trace)) ∧
    (syncBlocks 101 (exState 101 100 2 []) 201 210).toOption.map
        (fun sy1 => p2pCalls sy1.trace) = some [rangeBroadcast 201 210] :=
  ⟨⟨by decide, by decide, by decide⟩,
   syncBlocks_single (exState 101 100 2 []) 201 210 (by decide) (by decide) (by decide),
   by decide⟩

/-- C7 (as stated) fails: for `s = 2^63 - 51` and `e = -2^63 + 60` (so `e < s`
and `{s, ..., e}` is empty) the loop test holds because `s + 99` wraps, and
`syncBlocks` returns with the twelve numbers `-2^63 + 49 .. -2^63 + 60` marked
pending although the pending set was empty before. -/
theorem syncBlocks_pending_counterexample :
    (exState 101 100 2 []).reqMap = [] ∧
    ¬ ((9223372036854775757 : Int) ≤ -9223372036854775748) ∧
    (syncBlocks 20 (exState 101 100 2 []) 9223372036854775757
        (-9223372036854775748)).toOption.map (fun sy1 => sy1.reqMap) =
      some [-9223372036854775759, -9223372036854775758, -9223372036854775757,
        -9223372036854775756, -9223372036854775755, -9223372036854775754,
        -9223372036854775753, -9223372036854775752, -9223372036854775751,
        -9223372036854775750, -9223372036854775749, -9223372036854775748] := by
  refine ⟨rfl, by decide, by decide⟩

/-- C7 (amended): for every pending set and every `s`, `e` such that neither
`s + 100` nor `e + 100` overflows int64, `syncBlocks(s, e)` returns; replaying
its effects in order, each number in the range of a query is in the pending
set at the moment the query is broadcast; and on return the pending set is
exactly the old one united with `{s, ..., e}`. -/
theorem syncBlocks_pending (sy : SyncImpl) (s e : Int)
    (h1 : isInt64 s) (h2 : s + 100 ≤ maxInt64) (h3 : e + 100 ≤ maxInt64) :
    ∃ (fuel0 : Nat) (sy1 : SyncImpl) (t : List Effect),
      (∀ fuel, fuel0 ≤ fuel → syncBlocks fuel sy s e = .ok sy1) ∧
      sy1.trace = sy.trace ++ t ∧
      sy1.reqMap = replayReqMap sy.reqMap t ∧
      pendingWhenQueried sy.reqMap t ∧
      (∀ n : Int, n ∈ sy1.reqMap ↔ (n ∈ sy.reqMap ∨ (s ≤ n ∧ n ≤ e))) := by
  refine ⟨((e - s) / 100).toNat + 101, _, specTrace s e ((e - s) / 100).toNat,
    fun fuel hf => syncBlocks_total sy s e h1 h2 (Or.inr h3) fuel hf, rfl, rfl,
    pendingWhenQueried_specTrace _ _ _ _, ?_⟩
  intro n
  exact mem_replay_specTrace _ sy.reqMap s e n (rounds_bounds s e).2

/-- C7 witness: `syncBlocks(101, 210)` on an empty pending set leaves exactly
the 110 numbers `101 .. 210` pending. -/
theorem syncBlocks_pending_witness :
    (isInt64 101 ∧ (101 : Int) + 100 ≤ maxInt64 ∧ (210 : Int) + 100 ≤ maxInt64) ∧
    (∃ (fuel0 : Nat) (sy1 : SyncImpl) (t : List Effect),
      (∀ fuel, fuel0 ≤ fuel → syncBlocks fuel (exState 101 100 2 []) 101 210 = .ok sy1) ∧
      sy1.trace = (exState 101 100 2 []).trace ++ t ∧
      sy1.reqMap = replayReqMap (exState 101 100 2 []).reqMap t ∧
      pendingWhenQueried (exState 101 100 2 []).reqMap t ∧
      (∀ n : Int, n ∈ sy1.reqMap ↔ (n ∈ (exState 101 100 2 []).reqMap ∨ (101 ≤ n ∧ n ≤ 210)))) :=
  ⟨⟨by decide, by decide, by decide⟩,
   syncBlocks_pending (exState 101 100 2 []) 101 210 (by decide) (by decide) (by decide)⟩


/-! ## Theorems: CheckSyncProcess -/

/-- C8: `CheckSyncProcess` sets the mode to Normal and calls `dc.Reset()`
exactly when `syncEnd` is at most the cache head number; when `syncEnd` is
greater it returns the state as it is (mode and controller untouched), so a
state that was not Normal becomes Normal through it only if the cache head
number has reached `syncEnd`. -/
theorem CheckSyncProcess_spec (sy : SyncImpl) :
    (sy.syncEnd ≤ sy.blockCache.Head.Number →
      (CheckSyncProcess sy).mode = Mode.ModeNormal ∧
      (CheckSyncProcess sy).trace = sy.trace ++ [Effect.Reset]) ∧
    (sy.blockCache.Head.Number < sy.syncEnd → CheckSyncProcess sy = sy) ∧
    ((CheckSyncProcess sy).trace = sy.trace ++ [Effect.Reset] ↔
      sy.syncEnd ≤ sy.blockCache.Head.Number) ∧
    (sy.mode ≠ Mode.ModeNormal → (CheckSyncProcess sy).mode = Mode.ModeNormal →
      sy.syncEnd ≤ sy.blockCache.Head.Number) := by
  unfold CheckSyncProcess
  by_cases h : sy.syncEnd ≤ sy.blockCache.Head.Number
  · simp [h]
  · have h2 : sy.blockCache.Head.Number < sy.syncEnd := not_le.1 h
    simp only [if_neg h]
    refine ⟨fun h3 => absurd h3 h, fun _ => trivial, ?_, fun h3 h4 => absurd h4 h3⟩
    constructor
    · intro h3
      have := congrArg List.length h3
      simp at this
    · intro h3
      exact absurd h3 h

/-- C8 witness: a Sync state whose cache head has reached `syncEnd` returns to
Normal with one `Reset`; one whose head is still below stays as it is. -/
theorem CheckSyncProcess_spec_witness :
    (CheckSyncProcess { exState 101 100 2 [] with mode := Mode.ModeSync, syncEnd := 100 }).mode =
      Mode.ModeNormal ∧
    (CheckSyncProcess { exState 101 100 2 [] with mode := Mode.ModeSync, syncEnd := 100 }).trace =
      [Effect.Reset] ∧
    (CheckSyncProcess { exState 101 100 2 [] with mode := Mode.ModeSync, syncEnd := 210 }).mode =
      Mode.ModeSync :=
  ⟨((CheckSyncProcess_spec
      { exState 101 100 2 [] with mode := Mode.ModeSync, syncEnd := 100 }).1 (by decide)).1,
   ((CheckSyncProcess_spec
      { exState 101 100 2 [] with mode := Mode.ModeSync, syncEnd := 100 }).1 (by decide)).2,
   congrArg SyncImpl.mode ((CheckSyncProcess_spec
      { exState 101 100 2 [] with mode := Mode.ModeSync, syncEnd := 210 }).2.1 (by decide))⟩


/-! ## Lemmas: getBlockHashes -/

theorem getBlockHashesLoop_never (chain : BlockChain) (start : Int) (hstart : start ≤ minInt64) :
    ∀ (fuel : Nat) (i : Int) (node : List BlockCacheNode) (infos r : List BlockInfo),
      isInt64 i → getBlockHashesLoop chain start fuel i node infos ≠ .ok r := by
  intro fuel
  induction fuel with
  | zero =>
    intro i node infos r _ h
    simp [getBlockHashesLoop] at h
  | succ fuel ih =>
    intro i node infos r hi h
    have hge : i ≥ start := le_trans hstart hi.1
    simp only [getBlockHashesLoop, hge, if_true] at h
    split at h
    · exact ih _ _ _ _ (isInt64_wrap64 _) h
    · split at h
      · exact ih _ _ _ _ (isInt64_wrap64 _) h
      · exact ih _ _ _ _ (isInt64_wrap64 _) h

theorem getBlockHashesLoop_sound (chain : BlockChain) (start hi : Int) :
    ∀ (fuel : Nat) (i : Int) (node : List BlockCacheNode) (infos r : List BlockInfo),
      isInt64 i → i ≤ hi →
      (infos.map (fun b => b.Number)).Pairwise (· > ·) →
      (∀ b ∈ infos, i < b.Number ∧ b.Number ≤ hi ∧ start ≤ b.Number) →
      getBlockHashesLoop chain start fuel i node infos = .ok r →
      (r.map (fun b => b.Number)).Pairwise (· > ·) ∧
        ∀ b ∈ r, start ≤ b.Number ∧ b.Number ≤ hi := by
  intro fuel
  induction fuel with
  | zero =>
    intro i node infos r _ _ _ _ h
    simp [getBlockHashesLoop] at h
  | succ fuel ih =>
    intro i node infos r hi1 hi2 hp hb h
    by_cases hge : i ≥ start
    · simp only [getBlockHashesLoop, hge, if_true] at h
      by_cases hmin : i ≤ minInt64
      · exfalso
        have hs : start ≤ minInt64 := le_trans hge hmin
        split at h
        · exact getBlockHashesLoop_never chain start hs _ _ _ _ _ (isInt64_wrap64 _) h
        · split at h
          · exact getBlockHashesLoop_never chain start hs _ _ _ _ _ (isInt64_wrap64 _) h
          · exact getBlockHashesLoop_never chain start hs _ _ _ _ _ (isInt64_wrap64 _) h
      · have hsub : sub64 i 1 = i - 1 :=
          sub64_exact (by omega) (by have := hi1.2; omega)
        have hi3 : isInt64 (i - 1) := ⟨by omega, by have := hi1.2; omega⟩
        have hkeep : ∀ b ∈ infos, i - 1 < b.Number ∧ b.Number ≤ hi ∧ start ≤ b.Number :=
          fun b hb1 => ⟨by have := (hb b hb1).1; omega, (hb b hb1).2⟩
        have hadd : ∀ hash : Hash,
            ((infos ++ [({ Number := i, Hash := hash } : BlockInfo)]).map
              (fun b => b.Number)).Pairwise (· > ·) ∧
            ∀ b ∈ infos ++ [({ Number := i, Hash := hash } : BlockInfo)],
              i - 1 < b.Number ∧ b.Number ≤ hi ∧ start ≤ b.Number := by
          intro hash
          refine ⟨?_, ?_⟩
          · rw [List.map_append, List.pairwise_append]
            refine ⟨hp, by simp, ?_⟩
            intro a ha b hb2
            simp only [List.map_cons, List.map_nil, List.mem_singleton] at hb2
            obtain ⟨c, hc, rfl⟩ := List.mem_map.1 ha
            rw [hb2]
            exact (hb c hc).1
          · intro b hb2
            rcases List.mem_append.1 hb2 with hb2 | hb2
            · exact hkeep b hb2
            · rw [List.mem_singleton] at hb2
              subst hb2
              exact ⟨by simp only; omega, hi2, hge⟩
        rw [hsub] at h
        split at h
        · exact ih _ _ _ _ hi3 (by omega) (hadd _).1 (hadd _).2 h
        · split at h
          · exact ih _ _ _ _ hi3 (by omega) hp hkeep h
          · exact ih _ _ _ _ hi3 (by omega) (hadd _).1 (hadd _).2 h
    · simp only [getBlockHashesLoop, hge, if_false] at h
      cases h
      exact ⟨hp, fun b hb1 => ⟨(hb b hb1).2.2, (hb b hb1).2.1⟩⟩

theorem getBlockHashesLoop_returns (chain : BlockChain) (start : Int) (hs : minInt64 < start)
    (n : Nat) :
    ∀ (fuel : Nat) (i : Int) (node : List BlockCacheNode) (infos : List BlockInfo),
      i ≤ maxInt64 → i - start + 1 ≤ n → n < fuel →
      ∃ r, getBlockHashesLoop chain start fuel i node infos = .ok r := by
  induction n with
  | zero =>
    intro fuel i node infos _ hn hf
    obtain ⟨f, rfl⟩ : ∃ f, fuel = f + 1 := ⟨fuel - 1, by omega⟩
    have hge : ¬ i ≥ start := by push_cast at hn; omega
    exact ⟨infos, by simp only [getBlockHashesLoop, hge, if_false]⟩
  | succ n ih =>
    intro fuel i node infos hi hn hf
    obtain ⟨f, rfl⟩ : ∃ f, fuel = f + 1 := ⟨fuel - 1, by omega⟩
    by_cases hge : i ≥ start
    · have hsub : sub64 i 1 = i - 1 := sub64_exact (by omega) (by omega)
      simp only [getBlockHashesLoop, hge, if_true, hsub]
      split
      · exact ih f (i - 1) _ _ (by omega) (by push_cast at hn; omega) (by omega)
      · split
        · exact ih f (i - 1) _ _ (by omega) (by push_cast at hn; omega) (by omega)
        · exact ih f (i - 1) _ _ (by omega) (by push_cast at hn; omega) (by omega)
    · exact ⟨infos, by simp only [getBlockHashesLoop, hge, if_false]⟩

/-! ## Lemmas: the `make` of getBlockHashes -/

theorem makeslice_eq_none_iff (heapGrants : Int → Bool) (cap : Int) :
    makeslice heapGrants cap = none ↔
      0 ≤ cap ∧ cap * ptrSize ≤ maxAlloc ∧
        (cap * ptrSize ≤ maxSmallSize ∨ heapGrants (cap * ptrSize) = true) := by
  unfold makeslice
  by_cases h1 : cap < 0 ∨ maxAlloc < cap * ptrSize
  · rw [if_pos h1]
    constructor
    · intro h
      cases h
    · rintro ⟨a, b, _⟩
      rcases h1 with h | h
      · exact absurd a (not_le.2 h)
      · exact absurd b (not_le.2 h)
  · rw [if_neg h1]
    have h0 : 0 ≤ cap := not_lt.1 (fun h => h1 (Or.inl h))
    have hm : cap * ptrSize ≤ maxAlloc := not_lt.1 (fun h => h1 (Or.inr h))
    by_cases h2 : maxSmallSize < cap * ptrSize ∧ heapGrants (cap * ptrSize) = false
    · rw [if_pos h2]
      constructor
      · intro h
        cases h
      · rintro ⟨_, _, c | c⟩
        · exact absurd c (not_le.2 h2.1)
        · rw [h2.2] at c
          cases c
    · rw [if_neg h2]
      refine ⟨fun _ => ⟨h0, hm, ?_⟩, fun _ => rfl⟩
      by_cases h3 : cap * ptrSize ≤ maxSmallSize
      · exact Or.inl h3
      · refine Or.inr ?_
        cases hg : heapGrants (cap * ptrSize) with
        | true => rfl
        | false => exact absurd ⟨not_le.1 h3, hg⟩ h2

theorem makeslice_of_neg (heapGrants : Int → Bool) (cap : Int) (h : cap < 0) :
    makeslice heapGrants cap = some Fault.makesliceCapOutOfRange := by
  unfold makeslice
  rw [if_pos (Or.inl h)]

theorem getBlockHashes_refused (fuel : Nat) (sy : SyncImpl) (start end_ : Int) (f : Fault)
    (h : makeslice sy.heapGrants (add64 (sub64 end_ start) 1) = some f) :
    getBlockHashes fuel sy start end_ = .error f := by
  unfold getBlockHashes
  rw [h]

theorem getBlockHashes_granted (fuel : Nat) (sy : SyncImpl) (start end_ : Int)
    (h : makeslice sy.heapGrants (add64 (sub64 end_ start) 1) = none) :
    getBlockHashes fuel sy start end_ =
      match getBlockHashesLoop sy.blockChain start fuel
          (if end_ > sy.blockCache.Head.Number then sy.blockCache.Head.Number else end_)
          (sy.blockCache.Head :: sy.blockCache.HeadParents) [] with
      | .error f => .error f
      | .ok infos => .ok { BlockInfos := infos.reverse } := by
  unfold getBlockHashes
  rw [h]
  rfl

theorem getBlockHashes_ok_granted (fuel : Nat) (sy : SyncImpl) (start end_ : Int)
    (resp : BlockHashResponse) (h : getBlockHashes fuel sy start end_ = .ok resp) :
    makeslice sy.heapGrants (add64 (sub64 end_ start) 1) = none := by
  cases hm : makeslice sy.heapGrants (add64 (sub64 end_ start) 1) with
  | none => rfl
  | some f =>
    rw [getBlockHashes_refused fuel sy start end_ f hm] at h
    cases h

/-! ## Theorems: getBlockHashes -/

/-- C10: for every int64 `start`, `end` and every cache and chain, the block
infos `getBlockHashes(start, end)` returns are in strictly ascending number
order (so no number appears twice) and every number lies between `start` and
the smaller of `end` and the cache head number. The call does return, given
enough fuel, whenever `start` is above the smallest int64 and the `make` of the
capacity `end-start+1` does not fault; when that `make` faults, so does the
call. The `make` does not fault exactly when the capacity is not negative, its
bytes do not exceed `maxAlloc`, and the allocation is small or granted by the
heap. -/
theorem getBlockHashes_ascending (sy : SyncImpl) (start end_ : Int)
    (he : isInt64 end_) (hh : isInt64 sy.blockCache.Head.Number) :
    (∀ (fuel : Nat) (resp : BlockHashResponse),
      getBlockHashes fuel sy start end_ = .ok resp →
      (resp.BlockInfos.map (fun b => b.Number)).Sorted (· < ·) ∧
      (resp.BlockInfos.map (fun b => b.Number)).Nodup ∧
      ∀ b ∈ resp.BlockInfos,
        start ≤ b.Number ∧ b.Number ≤ end_ ∧ b.Number ≤ sy.blockCache.Head.Number) ∧
    (makeslice sy.heapGrants (add64 (sub64 end_ start) 1) = none → minInt64 < start →
      ∃ (fuel : Nat) (resp : BlockHashResponse),
        getBlockHashes fuel sy start end_ = .ok resp) ∧
    (∀ f : Fault, makeslice sy.heapGrants (add64 (sub64 end_ start) 1) = some f →
      ∀ fuel : Nat, getBlockHashes fuel sy start end_ = .error f) ∧
    (makeslice sy.heapGrants (add64 (sub64 end_ start) 1) = none ↔
      0 ≤ add64 (sub64 end_ start) 1 ∧ add64 (sub64 end_ start) 1 * ptrSize ≤ maxAlloc ∧
        (add64 (sub64 end_ start) 1 * ptrSize ≤ maxSmallSize ∨
          sy.heapGrants (add64 (sub64 end_ start) 1 * ptrSize) = true)) := by
  refine ⟨?_, ?_, fun f hf fuel => getBlockHashes_refused fuel sy start end_ f hf,
    makeslice_eq_none_iff _ _⟩
  · intro fuel resp h
    have hmk := getBlockHashes_ok_granted fuel sy start end_ resp h
    rw [getBlockHashes_granted fuel sy start end_ hmk] at h
    · have key : ∀ hi : Int, isInt64 hi → hi ≤ end_ → hi ≤ sy.blockCache.Head.Number →
          ∀ infos, getBlockHashesLoop sy.blockChain start fuel hi
            (sy.blockCache.Head :: sy.blockCache.HeadParents) [] = .ok infos →
          ((infos.reverse).map (fun b => b.Number)).Sorted (· < ·) ∧
          ((infos.reverse).map (fun b => b.Number)).Nodup ∧
          ∀ b ∈ infos.reverse,
            start ≤ b.Number ∧ b.Number ≤ end_ ∧ b.Number ≤ sy.blockCache.Head.Number := by
        intro hi hhi h1 h2 infos hl
        obtain ⟨hp, hb⟩ := getBlockHashesLoop_sound sy.blockChain start hi fuel hi _ [] infos
          hhi (le_refl _) (by simp) (by simp) hl
        have hsorted : ((infos.reverse).map (fun b => b.Number)).Sorted (· < ·) := by
          rw [List.map_reverse]
          exact List.pairwise_reverse.2 hp
        refine ⟨hsorted, hsorted.nodup, ?_⟩
        intro b hb1
        have := hb b (List.mem_reverse.1 hb1)
        exact ⟨this.1, le_trans this.2 h1, le_trans this.2 h2⟩
      by_cases hgt : end_ > sy.blockCache.Head.Number
      · simp only [hgt, if_true] at h
        cases hl : getBlockHashesLoop sy.blockChain start fuel sy.blockCache.Head.Number
            (sy.blockCache.Head :: sy.blockCache.HeadParents) [] with
        | error f => rw [hl] at h; cases h
        | ok infos =>
          rw [hl] at h
          cases h
          exact key _ hh (le_of_lt hgt) (le_refl _) infos hl
      · simp only [hgt, if_false] at h
        cases hl : getBlockHashesLoop sy.blockChain start fuel end_
            (sy.blockCache.Head :: sy.blockCache.HeadParents) [] with
        | error f => rw [hl] at h; cases h
        | ok infos =>
          rw [hl] at h
          cases h
          exact key _ he (le_refl _) (not_lt.1 hgt) infos hl
  · intro hmk hmin
    have hret : ∀ hi : Int, hi ≤ maxInt64 →
        ∃ r, getBlockHashesLoop sy.blockChain start ((hi - start + 1).toNat + 1) hi
          (sy.blockCache.Head :: sy.blockCache.HeadParents) [] = .ok r :=
      fun hi hhi => getBlockHashesLoop_returns sy.blockChain start hmin (hi - start + 1).toNat
        _ hi _ _ hhi (by omega) (by omega)
    by_cases hgt : end_ > sy.blockCache.Head.Number
    · obtain ⟨r, hr⟩ := hret sy.blockCache.Head.Number hh.2
      exact ⟨(sy.blockCache.Head.Number - start + 1).toNat + 1, ⟨r.reverse⟩, by
        rw [getBlockHashes_granted _ sy start end_ hmk, if_pos hgt, hr]⟩
    · obtain ⟨r, hr⟩ := hret end_ he.2
      exact ⟨(end_ - start + 1).toNat + 1, ⟨r.reverse⟩, by
        rw [getBlockHashes_granted _ sy start end_ hmk, if_neg hgt, hr]⟩


/-- C10 witness: with the cache head at 100, `getBlockHashes(95, 300)` returns
the numbers 95 to 100 in ascending order; `getBlockHashes(97, 97 + 2^45)`,
whose capacity `2^45 + 1` needs more than `maxAlloc` bytes, ends in the panic
of `make` and returns nothing. -/
theorem getBlockHashes_ascending_witness :
    (isInt64 300 ∧ isInt64 (exState 98 100 2 []).blockCache.Head.Number) ∧
    ((getBlockHashes 10 (exState 98 100 2 []) 95 300).toOption.map
        (fun resp => resp.BlockInfos.map (fun b => b.Number)) =
      some [95, 96, 97, 98, 99, 100]) ∧
    (∀ resp : BlockHashResponse, getBlockHashes 10 (exState 98 100 2 []) 95 300 = .ok resp →
      (resp.BlockInfos.map (fun b => b.Number)).Sorted (· < ·) ∧
      (resp.BlockInfos.map (fun b => b.Number)).Nodup ∧
      ∀ b ∈ resp.BlockInfos, 95 ≤ b.Number ∧ b.Number ≤ 300 ∧
        b.Number ≤ (exState 98 100 2 []).blockCache.Head.Number) ∧
    (∃ (fuel : Nat) (resp : BlockHashResponse),
      getBlockHashes fuel (exState 98 100 2 []) 95 300 = .ok resp) ∧
    (∀ fuel : Nat, getBlockHashes fuel (exState 98 100 2 []) 97 35184372088929 =
      .error Fault.makesliceCapOutOfRange) :=
  ⟨⟨by decide, by decide⟩, by decide,
   fun resp h =>
     (getBlockHashes_ascending (exState 98 100 2 []) 95 300 (by decide) (by decide)).1 10 resp h,
   (getBlockHashes_ascending (exState 98 100 2 []) 95 300 (by decide) (by decide)).2.1
     (by decide) (by decide),
   (getBlockHashes_ascending (exState 98 100 2 []) 97 35184372088929
     (by decide) (by decide)).2.2.1 Fault.makesliceCapOutOfRange (by decide)⟩

/-! ## Theorems: handleHashQuery -/

theorem handleHashQuery_rejects (fuel : Nat) (sy : SyncImpl) (rh : BlockHashQuery)
    (peerID : PeerID) (h : rh.End < rh.Start ∨ rh.Start < 0) :
    handleHashQuery fuel sy rh peerID = .ok sy := by
  unfold handleHashQuery
  rw [if_pos h]

theorem handleHashQuery_range (fuel : Nat) (sy : SyncImpl) (rh : BlockHashQuery)
    (peerID : PeerID) (resp : BlockHashResponse)
    (hv : ¬ (rh.End < rh.Start ∨ rh.Start < 0)) (ht : rh.ReqType = RequireType_GETBLOCKHASHES)
    (hr : getBlockHashes fuel sy rh.Start rh.End = .ok resp) :
    handleHashQuery fuel sy rh peerID =
      .ok (if resp.BlockInfos.length = 0 then sy
        else { sy with trace := sy.trace ++
          [Effect.SendToPeer peerID (Wire.hashResponse resp) MessageType.SyncBlockHashResponse
            MessagePriority.NormalMessage] }) := by
  unfold handleHashQuery resolveHashQuery
  rw [if_neg hv, if_pos ht, hr]
  by_cases h0 : resp.BlockInfos.length = 0
  · simp only [h0, if_true]
  · simp only [h0, if_false, BlockHashResponse.Marshal]

theorem handleHashQuery_byNumber (fuel : Nat) (sy : SyncImpl) (rh : BlockHashQuery)
    (peerID : PeerID) (hv : ¬ (rh.End < rh.Start ∨ rh.Start < 0))
    (ht : rh.ReqType = RequireType_GETBLOCKHASHESBYNUMBER) :
    handleHashQuery fuel sy rh peerID =
      .ok (if (getBlockHashesByNums sy rh.Nums).BlockInfos.length = 0 then sy
        else { sy with trace := sy.trace ++
          [Effect.SendToPeer peerID (Wire.hashResponse (getBlockHashesByNums sy rh.Nums))
            MessageType.SyncBlockHashResponse MessagePriority.NormalMessage] }) := by
  have ht0 : ¬ rh.ReqType = RequireType_GETBLOCKHASHES := by
    rw [ht]; decide
  unfold handleHashQuery resolveHashQuery
  rw [if_neg hv, if_neg ht0, if_pos ht]
  by_cases h0 : (getBlockHashesByNums sy rh.Nums).BlockInfos.length = 0
  · simp only [h0, if_true]
  · simp only [h0, if_false, BlockHashResponse.Marshal]

/-- C9: on the Range query `[0, 2^63 - 1]`, which passes the validation
(`end >= start`, `start >= 0`), `handleHashQuery` does not return for any
state, peer or fuel: the capacity `end-start+1` of the `make` in
`getBlockHashes` wraps to `-2^63` and `make` panics, so no response is sent,
whatever the cache and the chain could resolve. -/
theorem handleHashQuery_capacity_fault (fuel : Nat) (sy : SyncImpl) (peerID : PeerID) :
    ¬ ((9223372036854775807 : Int) < 0 ∨ (0 : Int) < 0) ∧
    handleHashQuery fuel sy
        { ReqType := RequireType_GETBLOCKHASHES, Start := 0, End := 9223372036854775807,
          Nums := [] } peerID =
      .error Fault.makesliceCapOutOfRange := by
  refine ⟨by decide, ?_⟩
  have hv : ¬ ((9223372036854775807 : Int) < 0 ∨ (0 : Int) < 0) := by decide
  have hcap : add64 (sub64 9223372036854775807 0) 1 < 0 := by decide
  unfold handleHashQuery resolveHashQuery
  simp only [if_neg hv, if_true,
    getBlockHashes_refused fuel sy 0 9223372036854775807 _ (makeslice_of_neg _ _ hcap)]

end Synchronizer

namespace Synchronizer

/-! ## Lemmas: what getBlockHashes resolves -/

theorem dropWhile_dropWhile_of_imp {α : Type} (p q : α → Bool)
    (h : ∀ a, p a = true → q a = true) (l : List α) :
    (l.dropWhile p).dropWhile q = l.dropWhile q := by
  induction l with
  | nil => rfl
  | cons a l ih =>
    by_cases hp : p a = true
    · rw [List.dropWhile_cons_of_pos hp, ih, List.dropWhile_cons_of_pos (h a hp)]
    · rw [List.dropWhile_cons_of_neg hp]

theorem mem_descFrom (n : Nat) : ∀ i x : Int, x ∈ descFrom i n ↔ (i - n < x ∧ x ≤ i) := by
  induction n with
  | zero => intro i x; simp [descFrom]
  | succ n ih =>
    intro i x
    simp only [descFrom, List.mem_cons, ih]
    push_cast
    omega

theorem resolveNumber_number (sy : SyncImpl) (i : Int) (b : BlockInfo)
    (h : resolveNumber sy i = some b) : b.Number = i := by
  unfold resolveNumber at h
  split at h
  · cases h; rfl
  · split at h
    · cases h
    · cases h; rfl

theorem getBlockHashesLoop_eq (sy : SyncImpl) (start : Int) (hs : minInt64 < start) (n : Nat) :
    ∀ (fuel : Nat) (i : Int) (node : List BlockCacheNode) (infos : List BlockInfo),
      i ≤ maxInt64 → i + 1 - start = n → n < fuel →
      (∀ j, j ≤ i → node.dropWhile (fun nd => decide (j < nd.Number)) =
        sy.blockCache.headPtr.dropWhile (fun nd => decide (j < nd.Number))) →
      getBlockHashesLoop sy.blockChain start fuel i node infos =
        .ok (infos ++ (descFrom i n).filterMap (resolveNumber sy)) := by
  induction n with
  | zero =>
    intro fuel i node infos _ hn hf _
    obtain ⟨f, rfl⟩ : ∃ f, fuel = f + 1 := ⟨fuel - 1, by omega⟩
    have hge : ¬ i ≥ start := by push_cast at hn; omega
    simp [getBlockHashesLoop, hge, descFrom]
  | succ n ih =>
    intro fuel i node infos hi hn hf hinv
    obtain ⟨f, rfl⟩ : ∃ f, fuel = f + 1 := ⟨fuel - 1, by omega⟩
    have hge : i ≥ start := by push_cast at hn; omega
    have hsub : sub64 i 1 = i - 1 := sub64_exact (by omega) (by omega)
    have hnext : ∀ j, j ≤ i - 1 →
        (sy.blockCache.headPtr.dropWhile (fun nd => decide (i < nd.Number))).dropWhile
            (fun nd => decide (j < nd.Number)) =
          sy.blockCache.headPtr.dropWhile (fun nd => decide (j < nd.Number)) := by
      intro j hj
      apply dropWhile_dropWhile_of_imp
      intro a ha
      simp only [decide_eq_true_eq] at ha ⊢
      omega
    simp only [getBlockHashesLoop, hge, if_true, hsub, hinv i (le_refl i), descFrom,
      List.filterMap_cons]
    cases hd : sy.blockCache.headPtr.dropWhile (fun nd => decide (i < nd.Number)) with
    | nil =>
      have hres : resolveNumber sy i =
          match sy.blockChain.GetHashByNumber i with
          | none => none
          | some hash => some { Number := i, Hash := hash } := by
        simp only [resolveNumber, hd]
      have hinv1 : ∀ j, j ≤ i - 1 →
          ([] : List BlockCacheNode).dropWhile (fun nd => decide (j < nd.Number)) =
            sy.blockCache.headPtr.dropWhile (fun nd => decide (j < nd.Number)) := by
        intro j hj
        rw [← hnext j hj, hd]
      simp only
      cases hc : sy.blockChain.GetHashByNumber i with
      | none =>
        rw [hc] at hres
        simp only [hres]
        exact ih f (i - 1) [] infos (by omega) (by push_cast at hn; omega) (by omega) hinv1
      | some hash =>
        rw [hc] at hres
        simp only [hres]
        rw [ih f (i - 1) [] _ (by omega) (by push_cast at hn; omega) (by omega) hinv1]
        simp
    | cons m rest =>
      have hres : resolveNumber sy i = some { Number := i, Hash := m.Block.HeadHash } := by
        simp only [resolveNumber, hd]
      have hinv1 : ∀ j, j ≤ i - 1 →
          (m :: rest).dropWhile (fun nd => decide (j < nd.Number)) =
            sy.blockCache.headPtr.dropWhile (fun nd => decide (j < nd.Number)) := by
        intro j hj
        rw [← hnext j hj, hd]
      simp only [hres]
      rw [ih f (i - 1) (m :: rest) _ (by omega) (by push_cast at hn; omega) (by omega) hinv1]
      simp

theorem getBlockHashes_eq (sy : SyncImpl) (start end_ : Int)
    (hmk : makeslice sy.heapGrants (add64 (sub64 end_ start) 1) = none) (hs : minInt64 < start)
    (he : end_ ≤ maxInt64) (fuel : Nat)
    (hf : (min end_ sy.blockCache.Head.Number + 1 - start).toNat < fuel) :
    getBlockHashes fuel sy start end_ =
      .ok { BlockInfos :=
        ((descFrom (min end_ sy.blockCache.Head.Number)
          (min end_ sy.blockCache.Head.Number + 1 - start).toNat).filterMap
            (resolveNumber sy)).reverse } := by
  have hend : (if end_ > sy.blockCache.Head.Number then sy.blockCache.Head.Number else end_) =
      min end_ sy.blockCache.Head.Number := by
    by_cases h : end_ > sy.blockCache.Head.Number
    · rw [if_pos h, min_eq_right (le_of_lt h)]
    · rw [if_neg h, min_eq_left (not_lt.1 h)]
  rw [getBlockHashes_granted fuel sy start end_ hmk, hend]
  have hmax : min end_ sy.blockCache.Head.Number ≤ maxInt64 := le_trans (min_le_left _ _) he
  by_cases hn : start ≤ min end_ sy.blockCache.Head.Number + 1
  · have hloop := getBlockHashesLoop_eq sy start hs
      (min end_ sy.blockCache.Head.Number + 1 - start).toNat fuel
      (min end_ sy.blockCache.Head.Number) sy.blockCache.headPtr [] hmax (by omega) hf
      (fun _ _ => rfl)
    simp only [BlockCache.headPtr] at hloop
    rw [hloop]
    simp
  · have h0 : (min end_ sy.blockCache.Head.Number + 1 - start).toNat = 0 := by omega
    obtain ⟨f, rfl⟩ : ∃ f, fuel = f + 1 := ⟨fuel - 1, by omega⟩
    have hge : ¬ min end_ sy.blockCache.Head.Number ≥ start := by omega
    simp only [getBlockHashesLoop, hge, h0, descFrom]
    simp

theorem mem_getBlockHashes (sy : SyncImpl) (start end_ : Int) (b : BlockInfo) :
    b ∈ ((descFrom (min end_ sy.blockCache.Head.Number)
          (min end_ sy.blockCache.Head.Number + 1 - start).toNat).filterMap
            (resolveNumber sy)).reverse ↔
      ∃ i, start ≤ i ∧ i ≤ end_ ∧ i ≤ sy.blockCache.Head.Number ∧
        resolveNumber sy i = some b := by
  rw [List.mem_reverse, List.mem_filterMap]
  constructor
  · rintro ⟨i, hi, hr⟩
    rw [mem_descFrom] at hi
    exact ⟨i, by omega, le_trans hi.2 (min_le_left _ _), le_trans hi.2 (min_le_right _ _), hr⟩
  · rintro ⟨i, h1, h2, h3, hr⟩
    refine ⟨i, ?_, hr⟩
    rw [mem_descFrom]
    have := le_min h2 h3
    omega

theorem getBlockHashes_same (sy : SyncImpl) (n : Int) (h0 : 0 ≤ n) (hn : isInt64 n)
    (fuel : Nat) (hf : 2 ≤ fuel) :
    getBlockHashes fuel sy n n =
      .ok { BlockInfos :=
        if n ≤ sy.blockCache.Head.Number then (resolveNumber sy n).toList else [] } := by
  have hcap : makeslice sy.heapGrants (add64 (sub64 n n) 1) = none := by
    have : sub64 n n = 0 := by
      unfold sub64
      rw [sub_self]
      rfl
    rw [this, makeslice_eq_none_iff]
    exact ⟨by decide, by decide, Or.inl (by decide)⟩
  have hmin : minInt64 < n := lt_of_lt_of_le (by decide) h0
  rw [getBlockHashes_eq sy n n hcap hmin hn.2 fuel (by omega)]
  by_cases h : n ≤ sy.blockCache.Head.Number
  · have h1 : (min n sy.blockCache.Head.Number + 1 - n).toNat = 1 := by
      rw [min_eq_left h]; omega
    rw [h1, min_eq_left h, if_pos h]
    cases hr : resolveNumber sy n <;> simp [descFrom, hr]
  · have h1 : (min n sy.blockCache.Head.Number + 1 - n).toNat = 0 := by
      rw [min_eq_right (le_of_lt (not_le.1 h))]; omega
    rw [h1, if_neg h]
    rfl

/-! ## Theorems: the content of a hash response -/

/-- C11 (as stated) fails: with the cache head at 100, the Range query
`[500, 500]` is clamped to the head and resolves to no info at all, and the
Range query `[95, 95]`, whose number is below the cache (100, 99, 98) and
beyond the persistent chain (90 blocks), resolves to no info either; in both
cases nothing is sent. -/
theorem getBlockHashes_single_counterexample :
    (getBlockHashes 5 (exState 98 100 2 []) 500 500).toOption = some { BlockInfos := [] } ∧
    (handleHashQuery 5 (exState 98 100 2 [])
        { ReqType := RequireType_GETBLOCKHASHES, Start := 500, End := 500, Nums := [] }
        "p").toOption.map (fun sy1 => sy1.trace) = some [] ∧
    (getBlockHashes 5 (exState 90 100 2 []) 95 95).toOption = some { BlockInfos := [] } ∧
    (handleHashQuery 5 (exState 90 100 2 [])
        { ReqType := RequireType_GETBLOCKHASHES, Start := 95, End := 95, Nums := [] }
        "p").toOption.map (fun sy1 => sy1.trace) = some [] := by
  refine ⟨by decide, by decide, by decide, by decide⟩

/-- C11 (amended): for every Range query with `start = end` and `start >= 0`,
the response built for it holds at most one block info: exactly one, numbered
`start`, when `start` is not above the cache head number and is resolved (by
the first node at or below `start` on the parent chain of the cache head,
else by the hash lookup of the persistent chain); none when `start` is above
the cache head number or is not resolved, and then nothing is sent. -/
theorem getBlockHashes_single (sy : SyncImpl) (rh : BlockHashQuery) (peerID : PeerID)
    (ht : rh.ReqType = RequireType_GETBLOCKHASHES) (he : rh.Start = rh.End)
    (h0 : 0 ≤ rh.Start) (hi : isInt64 rh.Start) :
    ∃ resp : BlockHashResponse,
      (∀ fuel, 2 ≤ fuel → getBlockHashes fuel sy rh.Start rh.End = .ok resp) ∧
      resp.BlockInfos.length ≤ 1 ∧
      (∀ b ∈ resp.BlockInfos, b.Number = rh.Start) ∧
      (resp.BlockInfos.length = 1 ↔
        (rh.Start ≤ sy.blockCache.Head.Number ∧ ∃ b, resolveNumber sy rh.Start = some b)) ∧
      (∀ fuel, 2 ≤ fuel → resp.BlockInfos.length = 1 →
        handleHashQuery fuel sy rh peerID =
          .ok { sy with trace := sy.trace ++
            [Effect.SendToPeer peerID (Wire.hashResponse resp)
              MessageType.SyncBlockHashResponse MessagePriority.NormalMessage] }) ∧
      (∀ fuel, 2 ≤ fuel → resp.BlockInfos.length = 0 →
        handleHashQuery fuel sy rh peerID = .ok sy) := by
  have hv : ¬ (rh.End < rh.Start ∨ rh.Start < 0) := by
    rw [← he]; omega
  have hrun : ∀ fuel, 2 ≤ fuel → getBlockHashes fuel sy rh.Start rh.End =
      .ok { BlockInfos :=
        if rh.Start ≤ sy.blockCache.Head.Number then (resolveNumber sy rh.Start).toList
        else [] } := by
    intro fuel hf
    rw [← he]
    exact getBlockHashes_same sy rh.Start h0 hi fuel hf
  refine ⟨_, hrun, ?_, ?_, ?_, ?_, ?_⟩
  · by_cases h : rh.Start ≤ sy.blockCache.Head.Number
    · simp only [if_pos h]
      cases resolveNumber sy rh.Start <;> simp
    · simp [if_neg h]
  · intro b hb
    by_cases h : rh.Start ≤ sy.blockCache.Head.Number
    · simp only [if_pos h] at hb
      cases hr : resolveNumber sy rh.Start with
      | none => simp [hr] at hb
      | some b1 =>
        simp only [hr, Option.toList, List.mem_singleton] at hb
        rw [hb]
        exact resolveNumber_number sy _ _ hr
    · simp [if_neg h] at hb
  · by_cases h : rh.Start ≤ sy.blockCache.Head.Number
    · simp only [if_pos h]
      cases hr : resolveNumber sy rh.Start <;> simp [h]
    · simp [if_neg h, h]
  · intro fuel hf h1
    rw [handleHashQuery_range fuel sy rh peerID _ hv ht (hrun fuel hf)]
    rw [if_neg (by rw [h1]; decide)]
  · intro fuel hf h1
    rw [handleHashQuery_range fuel sy rh peerID _ hv ht (hrun fuel hf)]
    rw [if_pos h1]

/-- C11 witness: with the cache head at 100 the Range query `[99, 99]` is
answered by the one info numbered 99. -/
theorem getBlockHashes_single_witness :
    (∃ resp : BlockHashResponse,
      (∀ fuel, 2 ≤ fuel → getBlockHashes fuel (exState 98 100 2 []) 99 99 = .ok resp) ∧
      resp.BlockInfos.length ≤ 1 ∧
      (∀ b ∈ resp.BlockInfos, b.Number = 99) ∧
      (resp.BlockInfos.length = 1 ↔
        ((99 : Int) ≤ (exState 98 100 2 []).blockCache.Head.Number ∧
          ∃ b, resolveNumber (exState 98 100 2 []) 99 = some b)) ∧
      (∀ fuel, 2 ≤ fuel → resp.BlockInfos.length = 1 →
        handleHashQuery fuel (exState 98 100 2 [])
            { ReqType := RequireType_GETBLOCKHASHES, Start := 99, End := 99, Nums := [] } "p" =
          .ok { exState 98 100 2 [] with trace := (exState 98 100 2 []).trace ++
            [Effect.SendToPeer "p" (Wire.hashResponse resp)
              MessageType.SyncBlockHashResponse MessagePriority.NormalMessage] }) ∧
      (∀ fuel, 2 ≤ fuel → resp.BlockInfos.length = 0 →
        handleHashQuery fuel (exState 98 100 2 [])
            { ReqType := RequireType_GETBLOCKHASHES, Start := 99, End := 99, Nums := [] } "p" =
          .ok (exState 98 100 2 []))) ∧
    (getBlockHashes 5 (exState 98 100 2 []) 99 99).toOption =
      some { BlockInfos := [{ Number := 99, Hash := [99] }] } :=
  ⟨getBlockHashes_single (exState 98 100 2 [])
      { ReqType := RequireType_GETBLOCKHASHES, Start := 99, End := 99, Nums := [] } "p"
      rfl rfl (by decide) (by decide),
   by decide⟩

theorem getBlockHashesLoop_mono (chain : BlockChain) (start : Int) :
    ∀ (fuel : Nat) (i : Int) (node : List BlockCacheNode) (infos r : List BlockInfo),
      getBlockHashesLoop chain start fuel i node infos = .ok r →
      ∀ k : Nat, getBlockHashesLoop chain start (fuel + k) i node infos = .ok r := by
  intro fuel
  induction fuel with
  | zero =>
    intro i node infos r h
    simp [getBlockHashesLoop] at h
  | succ fuel ih =>
    intro i node infos r h k
    have hk : fuel + 1 + k = (fuel + k) + 1 := by omega
    rw [hk]
    by_cases hge : i ≥ start
    · simp only [getBlockHashesLoop, hge, if_true] at h ⊢
      split
      · rename_i hd
        simp only [hd] at h
        exact ih _ _ _ _ h k
      · rename_i hd
        simp only [hd] at h
        split
        · rename_i hc
          simp only [hc] at h
          exact ih _ _ _ _ h k
        · rename_i hc
          simp only [hc] at h
          exact ih _ _ _ _ h k
    · simp only [getBlockHashesLoop, hge, if_false] at h ⊢
      exact h

theorem getBlockHashes_mono (sy : SyncImpl) (start end_ : Int) (fuel : Nat)
    (resp : BlockHashResponse) (h : getBlockHashes fuel sy start end_ = .ok resp) (k : Nat) :
    getBlockHashes (fuel + k) sy start end_ = .ok resp := by
  have hmk := getBlockHashes_ok_granted fuel sy start end_ resp h
  rw [getBlockHashes_granted _ sy start end_ hmk] at h ⊢
  split at h
  · cases h
  · rename_i infos hl
    rw [getBlockHashesLoop_mono _ _ _ _ _ _ _ hl k]
    exact h

theorem getBlockHashes_ok_start (sy : SyncImpl) (start end_ : Int) (fuel : Nat)
    (resp : BlockHashResponse) (he : isInt64 end_) (hh : isInt64 sy.blockCache.Head.Number)
    (h : getBlockHashes fuel sy start end_ = .ok resp) :
    makeslice sy.heapGrants (add64 (sub64 end_ start) 1) = none ∧ minInt64 < start := by
  have hmk := getBlockHashes_ok_granted fuel sy start end_ resp h
  refine ⟨hmk, ?_⟩
  by_contra hs
  have hs1 : start ≤ minInt64 := not_lt.1 hs
  rw [getBlockHashes_granted _ sy start end_ hmk] at h
  split at h
  · cases h
  · rename_i infos hl
    refine getBlockHashesLoop_never sy.blockChain start hs1 _ _ _ _ _ ?_ hl
    by_cases hgt : end_ > sy.blockCache.Head.Number
    · rw [if_pos hgt]; exact hh
    · rw [if_neg hgt]; exact he

theorem getBlockHashes_ok_eq (sy : SyncImpl) (start end_ : Int) (fuel : Nat)
    (resp : BlockHashResponse) (he : isInt64 end_) (hh : isInt64 sy.blockCache.Head.Number)
    (h : getBlockHashes fuel sy start end_ = .ok resp) :
    resp = { BlockInfos :=
        ((descFrom (min end_ sy.blockCache.Head.Number)
          (min end_ sy.blockCache.Head.Number + 1 - start).toNat).filterMap
            (resolveNumber sy)).reverse } := by
  obtain ⟨hcap, hs⟩ := getBlockHashes_ok_start sy start end_ fuel resp he hh h
  have h1 := getBlockHashes_mono sy start end_ fuel resp h
    ((min end_ sy.blockCache.Head.Number + 1 - start).toNat + 1)
  rw [getBlockHashes_eq sy start end_ hcap hs he.2 _ (by omega)] at h1
  cases h1
  rfl

theorem chain_number_lt (l : List BlockCacheNode) :
    ∀ a : BlockCacheNode, List.Chain (fun x y => y.Number = x.Number - 1) a l →
      ∀ x ∈ l, x.Number < a.Number := by
  induction l with
  | nil => intro a _ x hx; cases hx
  | cons b l ih =>
    intro a hc x hx
    rw [List.chain_cons] at hc
    rcases List.mem_cons.1 hx with hx | hx
    · rw [hx]; omega
    · have := ih b hc.2 x hx
      omega

theorem dropWhile_contiguous (l : List BlockCacheNode) :
    ∀ (a : BlockCacheNode) (i : Int),
      List.Chain (fun x y => y.Number = x.Number - 1) a l → i ≤ a.Number →
      (((a :: l).dropWhile (fun nd => decide (i < nd.Number)) = [] ∧
          ∀ x ∈ a :: l, x.Number ≠ i) ∨
        ∃ nd rest, (a :: l).dropWhile (fun nd => decide (i < nd.Number)) = nd :: rest ∧
          nd ∈ a :: l ∧ nd.Number = i ∧ ∀ x ∈ a :: l, x.Number = i → x = nd) := by
  induction l with
  | nil =>
    intro a i _ hi
    by_cases hlt : i < a.Number
    · left
      refine ⟨by simp [List.dropWhile, hlt], ?_⟩
      intro x hx
      rw [List.mem_singleton] at hx
      rw [hx]; omega
    · right
      refine ⟨a, [], by simp [List.dropWhile, hlt], List.mem_singleton.2 rfl, by omega, ?_⟩
      intro x hx _
      exact List.mem_singleton.1 hx
  | cons b l ih =>
    intro a i hc hi
    have hlt_tail := chain_number_lt (b :: l) a hc
    rw [List.chain_cons] at hc
    by_cases hlt : i < a.Number
    · have hdrop : (a :: b :: l).dropWhile (fun nd => decide (i < nd.Number)) =
          (b :: l).dropWhile (fun nd => decide (i < nd.Number)) :=
        List.dropWhile_cons_of_pos (by simpa using hlt)
      rw [hdrop]
      rcases ih b i hc.2 (by omega) with ⟨h1, h2⟩ | ⟨nd, rest, h1, h2, h3, h4⟩
      · left
        refine ⟨h1, ?_⟩
        intro x hx
        rcases List.mem_cons.1 hx with hx | hx
        · rw [hx]; omega
        · exact h2 x hx
      · right
        refine ⟨nd, rest, h1, List.mem_cons_of_mem _ h2, h3, ?_⟩
        intro x hx hxi
        rcases List.mem_cons.1 hx with hx | hx
        · rw [hx] at hxi; omega
        · exact h4 x hx hxi
    · right
      refine ⟨a, b :: l, List.dropWhile_cons_of_neg (by simpa using hlt),
        List.mem_cons_self _ _, by omega, ?_⟩
      intro x hx hxi
      rcases List.mem_cons.1 hx with hx | hx
      · exact hx
      · have := hlt_tail x hx
        omega

theorem resolveNumber_contiguous (sy : SyncImpl) (i : Int)
    (hc : List.Chain' (fun x y => y.Number = x.Number - 1) sy.blockCache.headPtr)
    (hi : i ≤ sy.blockCache.Head.Number) :
    (∀ nd ∈ sy.blockCache.headPtr, nd.Number = i →
      resolveNumber sy i = some { Number := i, Hash := nd.Block.HeadHash }) ∧
    ((∀ nd ∈ sy.blockCache.headPtr, nd.Number ≠ i) →
      resolveNumber sy i =
        match sy.blockChain.GetHashByNumber i with
        | none => none
        | some hash => some { Number := i, Hash := hash }) := by
  have hcases := dropWhile_contiguous sy.blockCache.HeadParents sy.blockCache.Head i hc hi
  simp only [BlockCache.headPtr] at hcases ⊢
  rcases hcases with ⟨h1, h2⟩ | ⟨nd, rest, h1, h2, h3, h4⟩
  · refine ⟨fun nd hnd hn => absurd hn (h2 nd hnd), fun _ => ?_⟩
    simp only [resolveNumber, BlockCache.headPtr, h1]
  · refine ⟨fun x hx hxi => ?_, fun hnone => absurd h3 (hnone nd h2)⟩
    rw [h4 x hx hxi]
    simp only [resolveNumber, BlockCache.headPtr, h1]

/-- C12: when every node on the parent chain of the cache head carries the
number of its child minus one, every response `getBlockHashes(start, end)`
returns (for int64 `end` and head number) answers each number `i` of
`[start, min(end, head.Number)]` as follows: if a node of that chain has number
`i`, the response holds `(i, that node's head hash)` and no other info
numbered `i`; otherwise, if the hash lookup of the persistent chain succeeds
for `i`, it holds `(i, that hash)` and no other info numbered `i`; otherwise
it holds no info numbered `i`. Each number is answered independently of the
others. The call does return, with the same response for every fuel above a
bound, whenever `start` is above the smallest int64 and the `make` of the
capacity `end-start+1` does not fault; when that `make` faults, so does the
call and there is no response. The `make` does not fault exactly when the
capacity is not negative, its bytes do not exceed `maxAlloc`, and the
allocation is small or granted by the heap. -/
theorem getBlockHashes_resolution (sy : SyncImpl) (start end_ : Int)
    (hc : List.Chain' (fun x y => y.Number = x.Number - 1) sy.blockCache.headPtr)
    (he : isInt64 end_) (hh : isInt64 sy.blockCache.Head.Number) :
    (∀ (fuel : Nat) (resp : BlockHashResponse),
      getBlockHashes fuel sy start end_ = .ok resp →
      ∀ i : Int, start ≤ i → i ≤ end_ → i ≤ sy.blockCache.Head.Number →
        (∀ nd ∈ sy.blockCache.headPtr, nd.Number = i →
          ({ Number := i, Hash := nd.Block.HeadHash } : BlockInfo) ∈ resp.BlockInfos ∧
          ∀ b ∈ resp.BlockInfos, b.Number = i →
            b = { Number := i, Hash := nd.Block.HeadHash }) ∧
        ((∀ nd ∈ sy.blockCache.headPtr, nd.Number ≠ i) →
          ∀ hash, sy.blockChain.GetHashByNumber i = some hash →
            ({ Number := i, Hash := hash } : BlockInfo) ∈ resp.BlockInfos ∧
            ∀ b ∈ resp.BlockInfos, b.Number = i → b = { Number := i, Hash := hash }) ∧
        ((∀ nd ∈ sy.blockCache.headPtr, nd.Number ≠ i) →
          sy.blockChain.GetHashByNumber i = none →
          ∀ b ∈ resp.BlockInfos, b.Number ≠ i)) ∧
    (makeslice sy.heapGrants (add64 (sub64 end_ start) 1) = none → minInt64 < start →
      ∃ (fuel0 : Nat) (resp : BlockHashResponse),
        ∀ fuel, fuel0 ≤ fuel → getBlockHashes fuel sy start end_ = .ok resp) ∧
    (∀ f : Fault, makeslice sy.heapGrants (add64 (sub64 end_ start) 1) = some f →
      ∀ fuel : Nat, getBlockHashes fuel sy start end_ = .error f) ∧
    (makeslice sy.heapGrants (add64 (sub64 end_ start) 1) = none ↔
      0 ≤ add64 (sub64 end_ start) 1 ∧ add64 (sub64 end_ start) 1 * ptrSize ≤ maxAlloc ∧
        (add64 (sub64 end_ start) 1 * ptrSize ≤ maxSmallSize ∨
          sy.heapGrants (add64 (sub64 end_ start) 1 * ptrSize) = true)) := by
  refine ⟨?_, ?_, fun f hf fuel => getBlockHashes_refused fuel sy start end_ f hf,
    makeslice_eq_none_iff _ _⟩
  · intro fuel resp h i h1 h2 h3
    have hresp := getBlockHashes_ok_eq sy start end_ fuel resp he hh h
    have hmem : ∀ b, b ∈ resp.BlockInfos ↔
        ∃ j, start ≤ j ∧ j ≤ end_ ∧ j ≤ sy.blockCache.Head.Number ∧
          resolveNumber sy j = some b := by
      intro b
      rw [hresp]
      exact mem_getBlockHashes sy start end_ b
    have huniq : ∀ b0 : BlockInfo, resolveNumber sy i = some b0 →
        b0 ∈ resp.BlockInfos ∧ ∀ b ∈ resp.BlockInfos, b.Number = i → b = b0 := by
      intro b0 hr
      refine ⟨(hmem b0).2 ⟨i, h1, h2, h3, hr⟩, ?_⟩
      intro b hb hbi
      obtain ⟨j, -, -, -, hj⟩ := (hmem b).1 hb
      have hji : j = i := by rw [← resolveNumber_number sy j b hj, hbi]
      rw [hji, hr] at hj
      exact (Option.some.inj hj).symm
    obtain ⟨hr1, hr2⟩ := resolveNumber_contiguous sy i hc h3
    refine ⟨fun nd hnd hn => huniq _ (hr1 nd hnd hn), ?_, ?_⟩
    · intro hnone hash hl
      have := hr2 hnone
      rw [hl] at this
      exact huniq _ this
    · intro hnone hl b hb hbi
      have := hr2 hnone
      rw [hl] at this
      obtain ⟨j, -, -, -, hj⟩ := (hmem b).1 hb
      have hji : j = i := by rw [← resolveNumber_number sy j b hj, hbi]
      rw [hji, this] at hj
      cases hj
  · intro hcap hs
    exact ⟨(min end_ sy.blockCache.Head.Number + 1 - start).toNat + 1, _,
      fun fuel hf => getBlockHashes_eq sy start end_ hcap hs he.2 fuel (by omega)⟩

theorem exState_contiguous :
    List.Chain' (fun x y : BlockCacheNode => y.Number = x.Number - 1)
      (exState 96 100 2 []).blockCache.headPtr := by
  show List.Chain' _ [exNode 100, exNode 99, exNode 98]
  exact List.chain'_cons.2 ⟨by decide, List.chain'_cons.2 ⟨by decide, List.chain'_singleton _⟩⟩

/-- C12 witness: cache nodes 100, 99, 98 and a persistent chain of 96 blocks;
`getBlockHashes(94, 300)` answers 99 from the cache, 95 from the chain and
leaves 97 out; `getBlockHashes(1, 2^63 - 1)`, whose capacity `2^63 - 1` needs
more than `maxAlloc` bytes, ends in the panic of `make`. -/
theorem getBlockHashes_resolution_witness :
    (getBlockHashes 10 (exState 96 100 2 []) 94 300).toOption =
      some { BlockInfos := [⟨94, [94]⟩, ⟨95, [95]⟩, ⟨98, [98]⟩, ⟨99, [99]⟩, ⟨100, [100]⟩] } ∧
    (∀ resp : BlockHashResponse, getBlockHashes 10 (exState 96 100 2 []) 94 300 = .ok resp →
      (⟨99, [99]⟩ : BlockInfo) ∈ resp.BlockInfos ∧
      (⟨95, [95]⟩ : BlockInfo) ∈ resp.BlockInfos ∧
      ∀ b ∈ resp.BlockInfos, b.Number ≠ 97) ∧
    (∃ (fuel0 : Nat) (resp : BlockHashResponse),
      ∀ fuel, fuel0 ≤ fuel → getBlockHashes fuel (exState 96 100 2 []) 94 300 = .ok resp) ∧
    (∀ fuel : Nat, getBlockHashes fuel (exState 96 100 2 []) 1 9223372036854775807 =
      .error Fault.makesliceCapOutOfRange) :=
  ⟨by decide,
   fun resp h =>
     ⟨((((getBlockHashes_resolution (exState 96 100 2 []) 94 300 exState_contiguous (by decide)
        (by decide)).1 10 resp h) 99 (by decide) (by decide) (by decide)).1
        (exNode 99) (by decide) rfl).1,
      ((((getBlockHashes_resolution (exState 96 100 2 []) 94 300 exState_contiguous (by decide)
        (by decide)).1 10 resp h) 95 (by decide) (by decide) (by decide)).2.1
        (by decide) [95] rfl).1,
      (((getBlockHashes_resolution (exState 96 100 2 []) 94 300 exState_contiguous (by decide)
        (by decide)).1 10 resp h) 97 (by decide) (by decide) (by decide)).2.2
        (by decide) rfl⟩,
   (getBlockHashes_resolution (exState 96 100 2 []) 94 300 exState_contiguous (by decide)
      (by decide)).2.1 (by decide) (by decide),
   (getBlockHashes_resolution (exState 96 100 2 []) 1 9223372036854775807 exState_contiguous
      (by decide) (by decide)).2.2.1 Fault.makesliceCapOutOfRange (by decide)⟩

/-! ## Lemmas and theorems: handleHashResp -/

theorem handleHashRespVisit_blockCache (peerID : PeerID) (sy : SyncImpl) (b : BlockInfo) :
    (handleHashRespVisit peerID sy b).blockCache = sy.blockCache := by
  unfold handleHashRespVisit
  split_ifs
  · split <;> rfl
  · rfl

theorem handleHashRespVisit_reqMap (peerID : PeerID) (sy : SyncImpl) (b : BlockInfo) :
    (handleHashRespVisit peerID sy b).reqMap = reqMapDelete sy.reqMap b.Number := by
  unfold handleHashRespVisit
  split_ifs
  · split <;> rfl
  · rfl

theorem handleHashRespVisit_missions (peerID : PeerID) (sy : SyncImpl) (b : BlockInfo) :
    missionCalls (handleHashRespVisit peerID sy b).trace =
      missionCalls sy.trace ++
        (if wantsMission sy.blockCache b then [Effect.CreateMission b.Hash b.Number peerID]
          else []) := by
  unfold handleHashRespVisit wantsMission
  by_cases h : b.Number > sy.blockCache.LinkedRoot.Number
  · cases hf : sy.blockCache.Find b.Hash with
    | none => simp [h, hf, missionCalls, List.filter_append]
    | some nd => simp [h, hf, missionCalls, List.filter_append]
  · simp [h, missionCalls, List.filter_append]

theorem mem_reqMapDelete (m : List Int) (i x : Int) :
    x ∈ reqMapDelete m i ↔ x ∈ m ∧ x ≠ i := by
  simp [reqMapDelete]

/-- C13: for every pending set, hash response and sending peer, a number is
pending after `handleHashResp` exactly when it was pending before and no block
info of the response carries it; this does not depend on the linked root, on
the cache or on whether a mission was created. -/
theorem handleHashResp_pending (sy : SyncImpl) (rh : BlockHashResponse) (peerID : PeerID)
    (n : Int) :
    n ∈ (handleHashResp sy rh peerID).reqMap ↔
      (n ∈ sy.reqMap ∧ ∀ b ∈ rh.BlockInfos, b.Number ≠ n) := by
  unfold handleHashResp
  generalize rh.BlockInfos = infos
  induction infos generalizing sy with
  | nil => simp
  | cons b infos ih =>
    rw [List.foldl_cons, ih, handleHashRespVisit_reqMap, mem_reqMapDelete]
    constructor
    · rintro ⟨⟨h1, h2⟩, h3⟩
      refine ⟨h1, ?_⟩
      intro c hc
      rcases List.mem_cons.1 hc with hc | hc
      · rw [hc]; exact fun h => h2 h.symm
      · exact h3 c hc
    · rintro ⟨h1, h2⟩
      exact ⟨⟨h1, fun h => h2 b (List.mem_cons_self _ _) h.symm⟩,
        fun c hc => h2 c (List.mem_cons_of_mem _ hc)⟩

/-- C14: for every hash response from peer `p`, the `CreateMission` calls
`handleHashResp` makes are, in response order, `CreateMission(hash, number, p)`
for exactly the block infos whose number is above the linked root's number and
whose hash `Find` does not find in the block cache; none is made for an info
at or below the linked root or found in the cache. -/
theorem handleHashResp_missions (sy : SyncImpl) (rh : BlockHashResponse) (peerID : PeerID) :
    missionCalls (handleHashResp sy rh peerID).trace =
      missionCalls sy.trace ++
        (rh.BlockInfos.filter (fun b =>
          decide (b.Number > sy.blockCache.LinkedRoot.Number) &&
            (sy.blockCache.Find b.Hash).isNone)).map
          (fun b => Effect.CreateMission b.Hash b.Number peerID) := by
  have key : ∀ (infos : List BlockInfo) (sy1 : SyncImpl),
      (infos.foldl (handleHashRespVisit peerID) sy1).blockCache = sy1.blockCache ∧
      missionCalls (infos.foldl (handleHashRespVisit peerID) sy1).trace =
        missionCalls sy1.trace ++
          (infos.filter (wantsMission sy1.blockCache)).map
            (fun b => Effect.CreateMission b.Hash b.Number peerID) := by
    intro infos
    induction infos with
    | nil => intro sy1; simp
    | cons b infos ih =>
      intro sy1
      obtain ⟨h1, h2⟩ := ih (handleHashRespVisit peerID sy1 b)
      rw [handleHashRespVisit_blockCache] at h1 h2
      refine ⟨h1, ?_⟩
      rw [List.foldl_cons, h2, handleHashRespVisit_missions]
      by_cases hw : wantsMission sy1.blockCache b = true
      · simp [hw, List.filter_cons]
      · simp [hw, List.filter_cons]
  exact (key rh.BlockInfos sy).2

/-! ## Theorems: the retry tick -/

theorem foldl_append_singleton (l : List Int) :
    ∀ init : List Int, l.foldl (fun nums num => nums ++ [num]) init = init ++ l := by
  induction l with
  | nil => intro init; simp
  | cons a l ih => intro init; simp [ih]

theorem retryDownloadTick_eq (sy : SyncImpl) :
    retryDownloadTick sy =
      if sy.reqMap.length > 0 then
        queryBlockHash sy { ReqType := 1, Start := 0, End := 0, Nums := sortSlice sy.reqMap }
      else sy := by
  unfold retryDownloadTick
  simp only [foldl_append_singleton, List.nil_append]

/-- C15: on a retry tick with pending set `P` (the keys of `reqMap`, which are
distinct): if `P` is not empty exactly one call is made, the broadcast of a
query of type ByNumber with `Start = End = 0` whose `Nums` is strictly
ascending and has exactly the elements of `P`; if `P` is empty no call is
made; in both cases `reqMap` is left as it was. -/
theorem retryDownloadTick_spec (sy : SyncImpl) (hn : sy.reqMap.Nodup) :
    (sy.reqMap ≠ [] →
      ∃ nums : List Int,
        (retryDownloadTick sy).trace = sy.trace ++
          [Effect.Broadcast
            (Wire.hashQuery
              { ReqType := RequireType_GETBLOCKHASHESBYNUMBER, Start := 0, End := 0,
                Nums := nums })
            MessageType.SyncBlockHashRequest MessagePriority.UrgentMessage] ∧
        nums.Sorted (· < ·) ∧ nums.length = sy.reqMap.length ∧
        ∀ n : Int, n ∈ nums ↔ n ∈ sy.reqMap) ∧
    (sy.reqMap = [] → (retryDownloadTick sy).trace = sy.trace) ∧
    (retryDownloadTick sy).reqMap = sy.reqMap := by
  rw [retryDownloadTick_eq]
  have hperm : (sortSlice sy.reqMap).Perm sy.reqMap := List.perm_insertionSort _ _
  refine ⟨?_, ?_, ?_⟩
  · intro hne
    have hpos : sy.reqMap.length > 0 := List.length_pos.2 hne
    refine ⟨sortSlice sy.reqMap, ?_, ?_, hperm.length_eq, fun n => hperm.mem_iff⟩
    · rw [if_pos hpos]
      rfl
    · exact (List.sorted_insertionSort (· ≤ ·) sy.reqMap).lt_of_le (hperm.nodup_iff.2 hn)
  · intro he
    have hpos : ¬ sy.reqMap.length > 0 := by simp [he]
    rw [if_neg hpos]
  · by_cases hpos : sy.reqMap.length > 0
    · rw [if_pos hpos]
      rfl
    · rw [if_neg hpos]

/-- C15 witness: the pending set {7, 3, 5} gives the one query with
`Nums = [3, 5, 7]`. -/
theorem retryDownloadTick_spec_witness :
    (retryDownloadTick { exState 101 100 2 [] with reqMap := [7, 3, 5] }).trace =
      [Effect.Broadcast
        (Wire.hashQuery { ReqType := 1, Start := 0, End := 0, Nums := [3, 5, 7] })
        MessageType.SyncBlockHashRequest MessagePriority.UrgentMessage] ∧
    (retryDownloadTick { exState 101 100 2 [] with reqMap := [7, 3, 5] }).reqMap = [7, 3, 5] ∧
    (retryDownloadTick (exState 101 100 2 [])).trace = [] :=
  ⟨by decide,
   (retryDownloadTick_spec { exState 101 100 2 [] with reqMap := [7, 3, 5] } (by decide)).2.2,
   (retryDownloadTick_spec (exState 101 100 2 []) (by decide)).2.1 rfl⟩

/-! ## Theorems: reqSyncBlock -/

/-- C16 (as stated) fails: for a block number at or below the linked root
(5 against 98) whose hash the cache finds as a Single node, `reqSyncBlock`
returns `(false, true)`, not `(false, false)`. -/
theorem reqSyncBlock_counterexample :
    ((exStateFind [1] { Number := 5, Block := ⟨"w", [1]⟩, Type_ := BCNType.Single, addr := 7 }).blockCache.Find
        [1]).map (fun bcn => bcn.Type_) = some BCNType.Single ∧
    (reqSyncBlock (exStateFind [1] { Number := 5, Block := ⟨"w", [1]⟩, Type_ := BCNType.Single, addr := 7 })
        [1] 5 "p").1 = (false, true) := by
  refine ⟨by decide, by decide⟩

/-- C16 (amended): for every hash `h`, block number `n` and peer `p`,
`reqSyncBlock` returns `(sent, confirmed)` where `confirmed` is true exactly
when `n` is at most the linked root's number or `h` is found as a Linked node;
`sent` is true exactly when `n` is above the linked root's number and `h` is
not found; the two are never both true; a hash found as a Single node gives
`(false, false)` when `n` is above the linked root's number and `(false, true)`
otherwise; and the one call made when `sent` is true is the unicast of
`BlockInfo{n, h}` to `p` as a block request with Urgent priority, no call
being made otherwise. -/
theorem reqSyncBlock_spec (sy : SyncImpl) (hash : Hash) (bn : Int) (peerID : PeerID) :
    ((reqSyncBlock sy hash bn peerID).1.2 = true ↔
      (bn ≤ sy.blockCache.LinkedRoot.Number ∨
        ∃ bcn, sy.blockCache.Find hash = some bcn ∧ bcn.Type_ = BCNType.Linked)) ∧
    ((reqSyncBlock sy hash bn peerID).1.1 = true ↔
      (bn > sy.blockCache.LinkedRoot.Number ∧ sy.blockCache.Find hash = none)) ∧
    ¬ ((reqSyncBlock sy hash bn peerID).1.1 = true ∧
        (reqSyncBlock sy hash bn peerID).1.2 = true) ∧
    (∀ bcn, sy.blockCache.Find hash = some bcn → bcn.Type_ = BCNType.Single →
      (reqSyncBlock sy hash bn peerID).1 =
        (false, decide (bn ≤ sy.blockCache.LinkedRoot.Number))) ∧
    ((reqSyncBlock sy hash bn peerID).1.1 = true →
      (reqSyncBlock sy hash bn peerID).2.trace = sy.trace ++
        [Effect.SendToPeer peerID (Wire.blockInfo { Number := bn, Hash := hash })
          MessageType.SyncBlockRequest MessagePriority.UrgentMessage]) ∧
    ((reqSyncBlock sy hash bn peerID).1.1 = false → (reqSyncBlock sy hash bn peerID).2 = sy) := by
  unfold reqSyncBlock
  by_cases hroot : bn ≤ sy.blockCache.LinkedRoot.Number
  · have hgt : ¬ bn > sy.blockCache.LinkedRoot.Number := not_lt.2 hroot
    simp [hroot, hgt]
  · have hgt : bn > sy.blockCache.LinkedRoot.Number := not_le.1 hroot
    cases hf : sy.blockCache.Find hash with
    | none => simp [hroot, hgt, BlockInfo.Marshal]
    | some bcn =>
      cases ht : bcn.Type_ with
      | Linked => simp [hroot, hgt, ht]
      | Single => simp [hroot, hgt, ht]

/-- C16 witness: number 150 above the linked root 98 with an unknown hash is
requested; the same number with a hash found as a Single node gives
`(false, false)`. -/
theorem reqSyncBlock_spec_witness :
    (reqSyncBlock (exState 101 100 2 []) [1] 150 "p").1 = (true, false) ∧
    (reqSyncBlock (exState 101 100 2 []) [1] 150 "p").2.trace =
      [Effect.SendToPeer "p" (Wire.blockInfo { Number := 150, Hash := [1] })
        MessageType.SyncBlockRequest MessagePriority.UrgentMessage] ∧
    (reqSyncBlock (exStateFind [1] { Number := 150, Block := ⟨"w", [1]⟩, Type_ := BCNType.Single, addr := 7 })
        [1] 150 "p").1 = (false, false) :=
  ⟨by decide,
   (reqSyncBlock_spec (exState 101 100 2 []) [1] 150 "p").2.2.2.2.1 (by decide),
   ((reqSyncBlock_spec
      (exStateFind [1] { Number := 150, Block := ⟨"w", [1]⟩, Type_ := BCNType.Single, addr := 7 })
      [1] 150 "p").2.2.2.1 _ rfl rfl).trans (by decide)⟩

/-! ## Theorems: getBlockHashesByNums -/

theorem byNumsVisit_eq (sy : SyncImpl) (infos : List BlockInfo) (num : Int) :
    byNumsVisit sy infos num = infos ++ (resolveByNum sy num).toList := by
  unfold byNumsVisit resolveByNum
  cases sy.blockCache.GetBlockByNumber num with
  | some blk => rfl
  | none =>
    cases sy.blockChain.GetHashByNumber num with
    | none => simp
    | some hash => rfl

theorem foldl_byNumsVisit (sy : SyncImpl) (nums : List Int) :
    ∀ infos : List BlockInfo,
      nums.foldl (byNumsVisit sy) infos = infos ++ nums.filterMap (resolveByNum sy) := by
  induction nums with
  | nil => intro infos; simp
  | cons n nums ih =>
    intro infos
    rw [List.foldl_cons, ih, byNumsVisit_eq]
    cases hr : resolveByNum sy n with
    | none => rw [List.filterMap_cons_none hr]; simp
    | some b => rw [List.filterMap_cons_some hr]; simp

theorem resolveByNum_number (sy : SyncImpl) (n : Int) (b : BlockInfo)
    (h : resolveByNum sy n = some b) : b.Number = n := by
  unfold resolveByNum at h
  split at h
  · cases h; rfl
  · split at h
    · cases h
    · cases h; rfl

theorem filterMap_numbers_sublist (sy : SyncImpl) (nums : List Int) :
    ((nums.filterMap (resolveByNum sy)).map (fun b => b.Number)).Sublist nums := by
  induction nums with
  | nil => simp
  | cons n nums ih =>
    cases hr : resolveByNum sy n with
    | none =>
      rw [List.filterMap_cons_none hr]
      exact ih.cons n
    | some b =>
      rw [List.filterMap_cons_some hr, List.map_cons, resolveByNum_number sy n b hr]
      exact ih.cons₂ n

/-- C20: for every list `nums` and every cache and chain,
`getBlockHashesByNums(nums)` returns, in the order of `nums`, the info of each
listed number that is resolved and none for the others: the info for `n`
carries the head hash of the block the cache returns for `n` when that lookup
succeeds, otherwise the hash of the persistent chain for `n` when that lookup
succeeds; the returned numbers are a subsequence of `nums` and there are at
most `len(nums)` infos. -/
theorem getBlockHashesByNums_spec (sy : SyncImpl) (nums : List Int) :
    (getBlockHashesByNums sy nums).BlockInfos = nums.filterMap (resolveByNum sy) ∧
    (∀ (n : Int) (blk : Block), sy.blockCache.GetBlockByNumber n = some blk →
      resolveByNum sy n = some { Number := n, Hash := blk.HeadHash }) ∧
    (∀ (n : Int) (hash : Hash), sy.blockCache.GetBlockByNumber n = none →
      sy.blockChain.GetHashByNumber n = some hash →
      resolveByNum sy n = some { Number := n, Hash := hash }) ∧
    (∀ n : Int, sy.blockCache.GetBlockByNumber n = none →
      sy.blockChain.GetHashByNumber n = none → resolveByNum sy n = none) ∧
    ((getBlockHashesByNums sy nums).BlockInfos.map (fun b => b.Number)).Sublist nums ∧
    (getBlockHashesByNums sy nums).BlockInfos.length ≤ nums.length := by
  have heq : (getBlockHashesByNums sy nums).BlockInfos = nums.filterMap (resolveByNum sy) := by
    unfold getBlockHashesByNums
    simp only [foldl_byNumsVisit, List.nil_append]
  refine ⟨heq, ?_, ?_, ?_, ?_, ?_⟩
  · intro n blk h
    simp only [resolveByNum, h]
  · intro n hash h1 h2
    simp only [resolveByNum, h1, h2]
  · intro n h1 h2
    simp only [resolveByNum, h1, h2]
  · rw [heq]
    exact filterMap_numbers_sublist sy nums
  · rw [heq]
    exact List.length_filterMap_le _ _

/-- C20 witness: with a persistent chain of 96 blocks and a cache that holds
no block by number, the list [97, 3, 200, 1] is answered by the infos of 3 and
1, in that order. -/
theorem getBlockHashesByNums_spec_witness :
    (getBlockHashesByNums (exState 96 100 2 []) [97, 3, 200, 1]).BlockInfos =
      [⟨3, [3]⟩, ⟨1, [1]⟩] ∧
    ((getBlockHashesByNums (exState 96 100 2 []) [97, 3, 200, 1]).BlockInfos.map
      (fun b => b.Number)).Sublist [97, 3, 200, 1] :=
  ⟨(getBlockHashesByNums_spec (exState 96 100 2 []) [97, 3, 200, 1]).1.trans (by decide),
   (getBlockHashesByNums_spec (exState 96 100 2 []) [97, 3, 200, 1]).2.2.2.2.1⟩

/-! ## Theorems: checkGenBlock -/

theorem countWitness_eq (w : String) (k : Nat) :
    ∀ (l : List BlockCacheNode) (num : Int), minInt64 ≤ num → num + k ≤ maxInt64 →
      countWitness w k l num =
        num + ((l.take k).countP (fun nd => decide (w = nd.Block.Witness)) : Nat) := by
  induction k with
  | zero => intro l num _ _; simp [countWitness]
  | succ k ih =>
    intro l num h1 h2
    cases l with
    | nil => simp [countWitness]
    | cons b l =>
      have hadd : add64 num 1 = num + 1 := add64_exact (by omega) (by push_cast at h2; omega)
      by_cases hw : w = b.Block.Witness
      · simp only [countWitness, if_pos hw, hadd, List.take_succ_cons]
        rw [ih l (num + 1) (by omega) (by push_cast at h2; omega)]
        rw [List.countP_cons_of_pos _ _ (by simpa using hw)]
        push_cast
        ring
      · simp only [countWitness, if_neg hw, List.take_succ_cons]
        rw [ih l num h1 (by push_cast at h2; omega)]
        rw [List.countP_cons_of_neg _ _ (by simpa using hw)]

theorem firstForeignPtr_cons (sy : SyncImpl) (bcn : BlockCacheNode)
    (parent : List BlockCacheNode) (h : firstForeign sy = bcn :: parent) :
    firstForeignPtr sy = some bcn.addr := by
  unfold firstForeignPtr
  rw [h]
  rfl

theorem checkGenBlock_eq (sy : SyncImpl) :
    checkGenBlock sy =
      if sy.mode ≠ Mode.ModeNormal then (false, sy)
      else if firstForeign sy = [] then (false, sy)
      else if firstForeignPtr sy ≠ sy.lastBcn then
        if sameWitnessCount (firstForeign sy) > 5 then
          (true, { sy with
            lastBcn := firstForeignPtr sy
            trace := sy.trace ++
              [Effect.goSyncBlocks (add64 (sub64 sy.blockChain.Length 1) 1)
                sy.blockCache.Head.Number] })
        else (false, { sy with lastBcn := firstForeignPtr sy })
      else (false, sy) := by
  by_cases hm : sy.mode ≠ Mode.ModeNormal
  · unfold checkGenBlock
    rw [if_pos hm, if_pos hm]
  · cases hd : firstForeign sy with
    | nil =>
      unfold checkGenBlock
      unfold firstForeign at hd
      rw [if_neg hm, if_neg hm, hd]
      simp
    | cons bcn parent =>
      have hp : firstForeignPtr sy = some bcn.addr := firstForeignPtr_cons sy bcn parent hd
      have h40 : (confirmNumber * continuousNum).toNat = 40 := by decide
      have hdead : ¬ (0 : Int) > continuousNum := by decide
      have hcount : countWitness bcn.Block.Witness 40 (bcn :: parent) 0 > continuousNum ↔
          sameWitnessCount (bcn :: parent) > 5 := by
        have hs : sameWitnessCount (bcn :: parent) =
            ((bcn :: parent).take 40).countP
              (fun nd => decide (bcn.Block.Witness = nd.Block.Witness)) := rfl
        rw [countWitness_eq _ _ _ _ (by decide) (by decide), hs]
        unfold continuousNum
        omega
      unfold checkGenBlock
      unfold firstForeign at hd
      rw [if_neg hm, if_neg hm, hd, hp]
      dsimp only
      rw [h40, if_neg (List.cons_ne_nil _ _), if_neg hdead]
      by_cases hl : some bcn.addr ≠ sy.lastBcn
      · rw [if_pos hl, if_pos hl]
        by_cases hc : sameWitnessCount (bcn :: parent) > 5
        · rw [if_pos hc]
          simp only [if_pos (hcount.2 hc)]
        · rw [if_neg hc]
          simp only [if_neg (fun h => hc (hcount.1 h))]
      · rw [if_neg hl, if_neg hl]

/-- C17 (as stated) fails: in Sync mode the first node whose witness is not the
local identity (the cache head here, at address 100) differs from `lastBcn`
(nil), yet the call returns before the cursor is touched and `lastBcn` stays
nil. -/
theorem checkGenBlock_counterexample :
    firstForeignPtr { exState 101 100 2 [] with mode := Mode.ModeSync } = some 100 ∧
    ({ exState 101 100 2 [] with mode := Mode.ModeSync } : SyncImpl).lastBcn = none ∧
    (checkGenBlock { exState 101 100 2 [] with mode := Mode.ModeSync }).2.lastBcn = none := by
  refine ⟨by decide, by decide, by decide⟩

/-- C17 (amended): `checkGenBlock` never changes the mode, and it returns true,
launching `syncBlocks(blockchain length, cache head number)`, exactly when the
mode is Normal, there is a first node `A` from the cache head through parents
whose witness is not the local identity, the pointer to `A` is not the pointer
kept in `lastBcn`, and among `A` and its next ancestors, 40 nodes at most in
total, more than 5 carry the witness of `A`. In Normal mode, when `A` exists,
the call leaves in `lastBcn` the pointer to `A`; in any other mode, or when
there is no such node, the state is returned untouched. A second call on the
state the first one returns gives false. -/
theorem checkGenBlock_spec (sy : SyncImpl) :
    (checkGenBlock sy).2.mode = sy.mode ∧
    ((checkGenBlock sy).1 = true ↔
      (sy.mode = Mode.ModeNormal ∧ firstForeign sy ≠ [] ∧ firstForeignPtr sy ≠ sy.lastBcn ∧
        sameWitnessCount (firstForeign sy) > 5)) ∧
    (∀ (a : BlockCacheNode) (rest : List BlockCacheNode), firstForeign sy = a :: rest →
      firstForeignPtr sy = some a.addr) ∧
    ((checkGenBlock sy).1 = true →
      (checkGenBlock sy).2.trace = sy.trace ++
        [Effect.goSyncBlocks (add64 (sub64 sy.blockChain.Length 1) 1)
          sy.blockCache.Head.Number]) ∧
    (isInt64 sy.blockChain.Length →
      add64 (sub64 sy.blockChain.Length 1) 1 = sy.blockChain.Length) ∧
    ((checkGenBlock sy).1 = false → (checkGenBlock sy).2.trace = sy.trace) ∧
    (sy.mode = Mode.ModeNormal → firstForeign sy ≠ [] →
      (checkGenBlock sy).2.lastBcn = firstForeignPtr sy) ∧
    ((sy.mode ≠ Mode.ModeNormal ∨ firstForeign sy = []) → checkGenBlock sy = (false, sy)) ∧
    (checkGenBlock (checkGenBlock sy).2).1 = false := by
  have hframe : (checkGenBlock sy).2.mode = sy.mode ∧
      (checkGenBlock sy).2.blockCache = sy.blockCache ∧
      (checkGenBlock sy).2.accID = sy.accID ∧
      (sy.mode = Mode.ModeNormal → firstForeign sy ≠ [] →
        (checkGenBlock sy).2.lastBcn = firstForeignPtr sy) := by
    rw [checkGenBlock_eq]
    split_ifs <;> simp_all
  refine ⟨hframe.1, ?_, firstForeignPtr_cons sy, ?_, ?_, ?_, hframe.2.2.2, ?_, ?_⟩
  · rw [checkGenBlock_eq]
    split_ifs <;> simp_all
  · rw [checkGenBlock_eq]
    split_ifs <;> simp_all
  · intro hL
    unfold isInt64 minInt64 maxInt64 at hL
    unfold add64 sub64 wrap64
    omega
  · rw [checkGenBlock_eq]
    split_ifs <;> simp_all
  · intro h
    rw [checkGenBlock_eq]
    rcases h with h | h
    · rw [if_pos h]
    · split_ifs <;> rfl
  · have hff : firstForeign (checkGenBlock sy).2 = firstForeign sy := by
      unfold firstForeign
      rw [hframe.2.1, hframe.2.2.1]
    have hfp : firstForeignPtr (checkGenBlock sy).2 = firstForeignPtr sy := by
      unfold firstForeignPtr
      rw [hff]
    rw [checkGenBlock_eq (checkGenBlock sy).2, hff, hfp, hframe.1]
    by_cases hm : sy.mode ≠ Mode.ModeNormal
    · rw [if_pos hm]
    · rw [if_neg hm]
      by_cases hn : firstForeign sy = []
      · rw [if_pos hn]
      · rw [if_neg hn, hframe.2.2.2 (not_not.1 hm) hn]
        simp

/-- C17 witness: eleven cached blocks of one foreign witness, the first of them
at address 100. With `lastBcn` nil the first call returns true and launches
`syncBlocks(101, 100)`, and the second returns false. With `lastBcn` holding
the address 7 of another node object the call returns true; with `lastBcn`
holding the address 100 it returns false. -/
theorem checkGenBlock_spec_witness :
    (checkGenBlock (exState 101 100 10 [])).1 = true ∧
    (checkGenBlock (exState 101 100 10 [])).2.trace = [Effect.goSyncBlocks 101 100] ∧
    (checkGenBlock (checkGenBlock (exState 101 100 10 [])).2).1 = false ∧
    (checkGenBlock { exState 101 100 10 [] with lastBcn := some 7 }).1 = true ∧
    (checkGenBlock { exState 101 100 10 [] with lastBcn := some 100 }).1 = false :=
  ⟨by decide,
   ((checkGenBlock_spec (exState 101 100 10 [])).2.2.2.1 (by decide)).trans (by decide),
   (checkGenBlock_spec (exState 101 100 10 [])).2.2.2.2.2.2.2.2,
   (checkGenBlock_spec { exState 101 100 10 [] with lastBcn := some 7 }).2.1.2
     ⟨rfl, by decide, by decide, by decide⟩,
   by decide⟩

/-! ## Theorems: the registry after a scan -/

theorem checkSyncVisit_fold_snd (now : Int) (reg : List (PeerID × SyncHeight)) :
    ∀ (hs : List Int) (m : List (PeerID × SyncHeight)),
      (reg.foldl (checkSyncVisit now) (hs, m)).2 =
        m.filter (fun e => decide (e.1 ∉
          (reg.filter (fun d => !fresh now d.2 && expired now d.2)).map Prod.fst)) := by
  induction reg with
  | nil => intro hs m; simp
  | cons a reg ih =>
    intro hs m
    rw [List.foldl_cons]
    by_cases h1 : add64 a.2.Time heightAvailableTime < now
    · by_cases h2 : add64 a.2.Time heightTimeout < now
      · have hf : (a :: reg).filter (fun d => !fresh now d.2 && expired now d.2) =
            a :: reg.filter (fun d => !fresh now d.2 && expired now d.2) := by
          simp [List.filter_cons, fresh, expired, h1, h2]
        have hv : checkSyncVisit now (hs, m) a = (hs, heightMapDelete m a.1) := by
          simp [checkSyncVisit, h1, h2]
        rw [hv, ih, hf, heightMapDelete, List.filter_filter]
        apply List.filter_congr
        intro e _
        rw [Bool.eq_iff_iff]
        simp only [List.map_cons, List.mem_cons, Bool.and_eq_true, decide_eq_true_eq, not_or]
        tauto
      · have hf : (a :: reg).filter (fun d => !fresh now d.2 && expired now d.2) =
            reg.filter (fun d => !fresh now d.2 && expired now d.2) := by
          simp [List.filter_cons, fresh, expired, h1, h2]
        have hv : checkSyncVisit now (hs, m) a = (hs, m) := by
          simp [checkSyncVisit, h1, h2]
        rw [hv, ih, hf]
    · have hf : (a :: reg).filter (fun d => !fresh now d.2 && expired now d.2) =
          reg.filter (fun d => !fresh now d.2 && expired now d.2) := by
        simp [List.filter_cons, fresh, h1]
      have hv : checkSyncVisit now (hs, m) a = (heightsInsert hs a.2.Height, m) := by
        simp [checkSyncVisit, h1]
      rw [hv, ih, hf]

theorem eq_of_key_eq (reg : List (PeerID × SyncHeight)) (hk : (reg.map Prod.fst).Nodup)
    (e d : PeerID × SyncHeight) (he : e ∈ reg) (hd : d ∈ reg) (h : e.1 = d.1) : e = d := by
  induction reg with
  | nil => cases he
  | cons a reg ih =>
    rw [List.map_cons, List.nodup_cons] at hk
    rcases List.mem_cons.1 he with he | he <;> rcases List.mem_cons.1 hd with hd | hd
    · rw [he, hd]
    · exfalso
      apply hk.1
      rw [← he, h]
      exact List.mem_map_of_mem _ hd
    · exfalso
      apply hk.1
      rw [← hd, ← h]
      exact List.mem_map_of_mem _ he
    · exact ih hk.2 he hd

theorem checkSyncScan_snd (headNumber now : Int) (reg : List (PeerID × SyncHeight))
    (hk : (reg.map Prod.fst).Nodup) :
    (checkSyncScan headNumber now reg).2 =
      reg.filter (fun e => fresh now e.2 || !expired now e.2) := by
  unfold checkSyncScan
  rw [checkSyncVisit_fold_snd]
  apply List.filter_congr
  intro e he
  by_cases hd : (!fresh now e.2 && expired now e.2) = true
  · have hmem : e.1 ∈ (reg.filter (fun d => !fresh now d.2 && expired now d.2)).map Prod.fst :=
      List.mem_map_of_mem _ (List.mem_filter.2 ⟨he, hd⟩)
    simp only [Bool.and_eq_true, Bool.not_eq_true'] at hd
    simp [hmem, hd.1, hd.2]
  · have hmem : e.1 ∉ (reg.filter (fun d => !fresh now d.2 && expired now d.2)).map Prod.fst := by
      intro hm
      obtain ⟨d, hd1, hd2⟩ := List.mem_map.1 hm
      rw [List.mem_filter] at hd1
      have := eq_of_key_eq reg hk e d he hd1.1 hd2.symm
      rw [this] at hd
      exact hd hd1.2
    cases hf : fresh now e.2 <;> cases hx : expired now e.2 <;> simp_all

theorem kept_bound (now : Int) (sh : SyncHeight) (ht : isInt64 sh.Time)
    (h : (fresh now sh || !expired now sh) = true) : now - sh.Time ≤ 6600 := by
  unfold isInt64 minInt64 maxInt64 at ht
  simp only [fresh, expired, add64, wrap64, heightAvailableTime, heightTimeout,
    Bool.or_eq_true, Bool.not_eq_true', decide_eq_false_iff_not, not_lt] at h
  omega

theorem kept_iff_exact (now : Int) (sh : SyncHeight) (ht : isInt64 sh.Time)
    (h2 : sh.Time + 6600 ≤ maxInt64) :
    (fresh now sh || !expired now sh) = true ↔ now - sh.Time ≤ 6600 := by
  unfold isInt64 minInt64 maxInt64 at ht
  unfold maxInt64 at h2
  simp only [fresh, expired, add64, wrap64, heightAvailableTime, heightTimeout,
    Bool.or_eq_true, Bool.not_eq_true', decide_eq_false_iff_not, not_lt]
  omega

/-- C18 (as stated) fails: an entry whose `Time` is the largest int64 satisfies
`now - Time <= 66`, so it is fresh, yet both `Time + 66` and `Time + 6600` wrap
below `now` and the scan deletes it. -/
theorem checkSync_registry_counterexample :
    ((1000 : Int) - 9223372036854775807 ≤ 66) ∧
    (exState 101 100 2 [("a", ⟨7, 9223372036854775807⟩)]).mode = Mode.ModeNormal ∧
    (checkSync (exState 101 100 2 [("a", ⟨7, 9223372036854775807⟩)]) 1000).2.heightMap = [] := by
  refine ⟨by decide, rfl, by decide⟩

/-- C18 (amended): after a `checkSync` scan run in Normal mode at time `now` on
a registry with one entry per peer, the registry holds, unchanged and in the
same order, exactly the entries that pass the freshness test or fail the
expiry test of the code (`Time + 66`, respectively `Time + 6600`, in wrapping
int64 arithmetic, compared with `now`); every entry still in it satisfies
`now - Time <= 6600`; and among the entries whose `Time + 6600` does not
overflow int64, those still in it are exactly the ones with
`now - Time <= 6600`: each expired one is deleted, fresh and stale ones are
kept. -/
theorem checkSync_registry (sy : SyncImpl) (now : Int)
    (hm : sy.mode = Mode.ModeNormal) (hk : (sy.heightMap.map Prod.fst).Nodup) :
    (checkSync sy now).2.heightMap =
      sy.heightMap.filter (fun e => fresh now e.2 || !expired now e.2) ∧
    (∀ e ∈ (checkSync sy now).2.heightMap, isInt64 e.2.Time → now - e.2.Time ≤ 6600) ∧
    (∀ e ∈ sy.heightMap, isInt64 e.2.Time → e.2.Time + 6600 ≤ maxInt64 →
      (e ∈ (checkSync sy now).2.heightMap ↔ now - e.2.Time ≤ 6600)) := by
  have hreg : (checkSync sy now).2.heightMap =
      sy.heightMap.filter (fun e => fresh now e.2 || !expired now e.2) := by
    rw [checkSync_eq, if_neg (not_not.2 hm)]
    split_ifs
    · exact checkSyncScan_snd _ now sy.heightMap hk
    · exact checkSyncScan_snd _ now sy.heightMap hk
  refine ⟨hreg, ?_, ?_⟩
  · intro e he ht
    rw [hreg, List.mem_filter] at he
    exact kept_bound now e.2 ht he.2
  · intro e he ht h2
    rw [hreg, List.mem_filter]
    constructor
    · exact fun h => (kept_iff_exact now e.2 ht h2).1 h.2
    · exact fun h => ⟨he, (kept_iff_exact now e.2 ht h2).2 h⟩

/-- C18 witness: at time 10000 a fresh entry (9990) and a stale one (5000) are
kept, an expired one (10) is deleted. -/
theorem checkSync_registry_witness :
    (checkSync (exState 101 100 2
        [("f", ⟨105, 9990⟩), ("x", ⟨500, 10⟩), ("s", ⟨108, 5000⟩)]) 10000).2.heightMap =
      [("f", ⟨105, 9990⟩), ("s", ⟨108, 5000⟩)] ∧
    (∀ e ∈ (checkSync (exState 101 100 2
        [("f", ⟨105, 9990⟩), ("x", ⟨500, 10⟩), ("s", ⟨108, 5000⟩)]) 10000).2.heightMap,
      isInt64 e.2.Time → 10000 - e.2.Time ≤ 6600) :=
  ⟨(checkSync_registry (exState 101 100 2
      [("f", ⟨105, 9990⟩), ("x", ⟨500, 10⟩), ("s", ⟨108, 5000⟩)]) 10000 rfl
      (by decide)).1.trans (by decide),
   (checkSync_registry (exState 101 100 2
      [("f", ⟨105, 9990⟩), ("x", ⟨500, 10⟩), ("s", ⟨108, 5000⟩)]) 10000 rfl (by decide)).2.1⟩

/-! ## Theorems: recording a peer height -/

theorem heightMapStore_cons (e : PeerID × SyncHeight) (m : List (PeerID × SyncHeight))
    (k : PeerID) (v : SyncHeight) :
    heightMapStore (e :: m) k v =
      if e.1 = k then (k, v) :: m.map (fun x => if x.1 = k then (k, v) else x)
      else e :: heightMapStore m k v := by
  unfold heightMapStore
  by_cases h : e.1 = k
  · simp [h]
  · by_cases ha : (m.any fun x => decide (x.1 = k)) = true
    · simp [h, ha]
    · simp [h, ha]

theorem heightMapLoad_cons (e : PeerID × SyncHeight) (m : List (PeerID × SyncHeight))
    (q : PeerID) :
    heightMapLoad (e :: m) q = if e.1 = q then some e.2 else heightMapLoad m q := by
  unfold heightMapLoad
  by_cases h : e.1 = q
  · simp [List.find?_cons, h]
  · simp [List.find?_cons, h]

theorem heightMapLoad_store_same (m : List (PeerID × SyncHeight)) (k : PeerID)
    (v : SyncHeight) : heightMapLoad (heightMapStore m k v) k = some v := by
  induction m with
  | nil => simp [heightMapStore, heightMapLoad]
  | cons e m ih =>
    rw [heightMapStore_cons]
    by_cases h : e.1 = k
    · rw [if_pos h, heightMapLoad_cons]
      simp
    · rw [if_neg h, heightMapLoad_cons, if_neg h, ih]

theorem heightMapLoad_map_other (m : List (PeerID × SyncHeight)) (k q : PeerID)
    (v : SyncHeight) (hq : q ≠ k) :
    heightMapLoad (m.map (fun x => if x.1 = k then (k, v) else x)) q = heightMapLoad m q := by
  induction m with
  | nil => rfl
  | cons e m ih =>
    rw [List.map_cons, heightMapLoad_cons, heightMapLoad_cons, ih]
    by_cases h : e.1 = k
    · have h1 : ¬ e.1 = q := fun hx => hq (hx.symm.trans h)
      simp [h, h1, hq.symm]
    · simp [h]

theorem heightMapLoad_store_other (m : List (PeerID × SyncHeight)) (k q : PeerID)
    (v : SyncHeight) (hq : q ≠ k) :
    heightMapLoad (heightMapStore m k v) q = heightMapLoad m q := by
  induction m with
  | nil => simp [heightMapStore, heightMapLoad, List.find?_cons, hq.symm]
  | cons e m ih =>
    rw [heightMapStore_cons]
    by_cases h : e.1 = k
    · have h1 : ¬ e.1 = q := fun hx => hq (hx.symm.trans h)
      rw [if_pos h, heightMapLoad_cons, heightMapLoad_cons, if_neg h1,
        heightMapLoad_map_other m k q v hq]
      simp [hq.symm]
    · rw [if_neg h, heightMapLoad_cons, heightMapLoad_cons, ih]

/-- C19: for every registry, peer `p`, height `h` and timestamps `t1`, `t2`,
recording `(p, h, t1)` and then `(p, h, t2)` leaves the state that recording
`(p, h, t1)` alone leaves; a report whose height equals the stored one changes
nothing, a report with a different height (or for a peer not yet stored) makes
the entry of `p` the new height and time, and the entries of the other peers
are never touched. -/
theorem recordHeight_idempotent (sy : SyncImpl) (p : PeerID) (h t1 t2 : Int) :
    recordHeight (recordHeight sy p ⟨h, t1⟩) p ⟨h, t2⟩ = recordHeight sy p ⟨h, t1⟩ ∧
    (∀ shOld, heightMapLoad sy.heightMap p = some shOld → shOld.Height = h →
      recordHeight sy p ⟨h, t1⟩ = sy) ∧
    (∀ shOld, heightMapLoad sy.heightMap p = some shOld → shOld.Height ≠ h →
      heightMapLoad (recordHeight sy p ⟨h, t1⟩).heightMap p = some ⟨h, t1⟩) ∧
    (heightMapLoad sy.heightMap p = none →
      heightMapLoad (recordHeight sy p ⟨h, t1⟩).heightMap p = some ⟨h, t1⟩) ∧
    (∀ q, q ≠ p →
      heightMapLoad (recordHeight sy p ⟨h, t1⟩).heightMap q = heightMapLoad sy.heightMap q) := by
  have hsame : ∀ (s : SyncImpl) (t : Int) (shOld : SyncHeight),
      heightMapLoad s.heightMap p = some shOld → shOld.Height = h →
      recordHeight s p ⟨h, t⟩ = s := by
    intro s t shOld hl hh
    unfold recordHeight
    rw [hl]
    simp [hh]
  have hstore : ∀ t : Int,
      (¬ ∃ shOld, heightMapLoad sy.heightMap p = some shOld ∧ shOld.Height = h) →
      recordHeight sy p ⟨h, t⟩ =
        { sy with heightMap := heightMapStore sy.heightMap p ⟨h, t⟩ } := by
    intro t hno
    unfold recordHeight
    cases hl : heightMapLoad sy.heightMap p with
    | none => rfl
    | some shOld =>
      have : ¬ shOld.Height = h := fun hh => hno ⟨shOld, hl, hh⟩
      simp [this]
  refine ⟨?_, fun shOld hl hh => hsame sy t1 shOld hl hh, ?_, ?_, ?_⟩
  · by_cases hex : ∃ shOld, heightMapLoad sy.heightMap p = some shOld ∧ shOld.Height = h
    · obtain ⟨shOld, hl, hh⟩ := hex
      rw [hsame sy t1 shOld hl hh]
      exact hsame sy t2 shOld hl hh
    · rw [hstore t1 hex]
      exact hsame _ t2 ⟨h, t1⟩ (heightMapLoad_store_same _ _ _) rfl
  · intro shOld hl hh
    rw [hstore t1 (fun ⟨o, ho, hoh⟩ => hh (by rw [hl] at ho; cases ho; exact hoh))]
    exact heightMapLoad_store_same _ _ _
  · intro hl
    rw [hstore t1 (fun ⟨o, ho, _⟩ => by rw [hl] at ho; cases ho)]
    exact heightMapLoad_store_same _ _ _
  · intro q hq
    by_cases hex : ∃ shOld, heightMapLoad sy.heightMap p = some shOld ∧ shOld.Height = h
    · obtain ⟨shOld, hl, hh⟩ := hex
      rw [hsame sy t1 shOld hl hh]
    · rw [hstore t1 hex]
      exact heightMapLoad_store_other _ _ _ _ hq

/-- C19 witness: a repeat of height 5 keeps the first time, height 6 replaces
the entry. -/
theorem recordHeight_idempotent_witness :
    (recordHeight (recordHeight (exState 101 100 2 []) "p" ⟨5, 1⟩) "p" ⟨5, 2⟩).heightMap =
      [("p", ⟨5, 1⟩)] ∧
    (recordHeight (recordHeight (exState 101 100 2 []) "p" ⟨5, 1⟩) "p" ⟨6, 2⟩).heightMap =
      [("p", ⟨6, 2⟩)] :=
  ⟨(congrArg SyncImpl.heightMap
      (recordHeight_idempotent (exState 101 100 2 []) "p" 5 1 2).1).trans (by decide),
   by decide⟩

end Synchronizer

namespace Synchronizer

/-! ## Theorems: faults of handleHashQuery -/

/-- C21: `handleHashQuery` does not end without a fault for every decoded
query. For a query that passes the validation (`end >= start`, `start >= 0`)
and whose `ReqType` is neither 0 (Range) nor 1 (ByNumber), no case of the
`switch` assigns `resp`, so there is no response value to inspect, and the read
`resp.BlockInfos` through the nil pointer faults, for every state, peer and
fuel. -/
theorem handleHashQuery_nil_response (fuel : Nat) (sy : SyncImpl) (rh : BlockHashQuery)
    (peerID : PeerID) (hv : ¬ (rh.End < rh.Start ∨ rh.Start < 0))
    (h0 : rh.ReqType ≠ RequireType_GETBLOCKHASHES)
    (h1 : rh.ReqType ≠ RequireType_GETBLOCKHASHESBYNUMBER) :
    resolveHashQuery fuel sy rh = .ok none ∧
    handleHashQuery fuel sy rh peerID = .error Fault.nilPointerDereference := by
  have hr : resolveHashQuery fuel sy rh = .ok none := by
    unfold resolveHashQuery
    rw [if_neg h0, if_neg h1]
  refine ⟨hr, ?_⟩
  unfold handleHashQuery
  rw [if_neg hv, hr]

/-- C21 witness: the validated query with `ReqType = 2` for the numbers 95..99
has no response value and faults, on a state whose cache and chain hold those
numbers. -/
theorem handleHashQuery_nil_response_witness :
    ¬ ((99 : Int) < 95 ∨ (95 : Int) < 0) ∧
    resolveHashQuery 10 (exState 98 100 2 [])
        { ReqType := 2, Start := 95, End := 99, Nums := [] } = .ok none ∧
    handleHashQuery 10 (exState 98 100 2 [])
        { ReqType := 2, Start := 95, End := 99, Nums := [] } "p" =
      .error Fault.nilPointerDereference :=
  ⟨by decide,
   handleHashQuery_nil_response 10 (exState 98 100 2 [])
      { ReqType := 2, Start := 95, End := 99, Nums := [] } "p"
      (by decide) (by decide) (by decide)⟩

end Synchronizer
